import Mathlib

/-!
Verification of the documentation build script `build_docs.py`.

The script is a linear pipeline over text; we embed its string-processing
components shallowly: Python `str` becomes `List Char`, `pathlib.Path`
relative paths become a record of directory components plus a filename,
and the file system becomes an explicit record of query functions.
Python's regular-expression operations are embedded as executable
scanners whose equivalence with the regex semantics is derived in the
comments next to each definition.
-/

/-- Abbreviation turning a string literal into the `List Char` that models
Python text throughout this development. -/
def cl (s : String) : List Char := s.toList

/-- Characters counted as whitespace by Python's `\s` (ASCII range) and by
`str.strip`; the source only ever meets ASCII whitespace. -/
def isPySpace (c : Char) : Bool :=
  c = ' ' || c = '\t' || c = '\n' || c = '\r' || c = Char.ofNat 11 || c = Char.ofNat 12

/-- Python `str.strip()`: drop whitespace from both ends. -/
def pyStrip (l : List Char) : List Char :=
  ((l.dropWhile isPySpace).reverse.dropWhile isPySpace).reverse

/-- Python `str.title()` helper: walk the characters carrying whether the
previous character was alphabetic; a letter after a non-letter is
uppercased, a letter after a letter is lowercased. -/
def pyTitleGo : Bool → List Char → List Char
  | _, [] => []
  | prevAlpha, c :: r =>
    if c.isAlpha then
      (if prevAlpha then c.toLower else c.toUpper) :: pyTitleGo true r
    else
      c :: pyTitleGo false r

/-- Python `str.title()` (ASCII behaviour, which is all the script meets). -/
def pyTitle (l : List Char) : List Char := pyTitleGo false l

/-- The two chained `str.replace` calls `name.replace('-', ' ').replace('_', ' ')`
from `get_title_from_markdown` / `build_breadcrumb`: both targets are single
characters replaced by a space, so the chain is a single character map. -/
def replDU (l : List Char) : List Char :=
  l.map (fun c => if c = '-' || c = '_' then ' ' else c)

/-- A path relative to the documentation root `docs/`, as produced by
`md_path.relative_to(DOCS_DIR)`: the intermediate directory components and
the final filename (`PurePath.parts = dirs ++ [filename]`). -/
structure RelPath where
  dirs : List (List Char)
  filename : List Char
deriving DecidableEq, Repr

/-- Render a `RelPath` the way `str(path)` renders a relative POSIX path:
directory components each followed by `/`, then the filename. -/
def renderPath (p : RelPath) : List Char :=
  p.dirs.foldr (fun d acc => d ++ '/' :: acc) p.filename

/-- Python `PurePath.suffix` of a filename: the part of the name from its
last dot `name[i:]`, provided `0 < i < len(name) - 1` (CPython's rule:
a leading dot or a trailing dot yields no suffix); otherwise `''`.
We locate the last dot by splitting the reversed name at its first dot. -/
def pySuffix (name : List Char) : List Char :=
  if name.reverse.dropWhile (fun c => c ≠ '.') = [] ∨
      name.reverse.takeWhile (fun c => c ≠ '.') = [] ∨
      (name.reverse.dropWhile (fun c => c ≠ '.')).tail = [] then []
  else '.' :: (name.reverse.takeWhile (fun c => c ≠ '.')).reverse

/-- Python `PurePath.stem`: the filename with its suffix removed
(`name[:-len(suffix)]` when the suffix is nonempty, else the whole name). -/
def pyStem (name : List Char) : List Char :=
  name.take (name.length - (pySuffix name).length)

/-- Python `path.with_suffix(".html")` applied to a filename: remove the
old suffix (nothing is removed when the old suffix is empty) and append
`.html`. -/
def withSuffixHtml (name : List Char) : List Char :=
  pyStem name ++ cl ".html"

/-- `md_to_html_path` (build_docs.py lines 67-72): a `README.md` filename maps
to `index.html` in the same directory (`rel.parent / "index.html"`); any other
filename has its suffix replaced via `rel.with_suffix(".html")`. The result is
the rendered relative path string. -/
def md_to_html_path (p : RelPath) : List Char :=
  if p.filename = cl "README.md" then
    renderPath ⟨p.dirs, cl "index.html"⟩
  else
    renderPath ⟨p.dirs, withSuffixHtml p.filename⟩

theorem pySuffix_append_md (P : List Char) (hP : P ≠ []) :
    pySuffix (P ++ cl ".md") = cl ".md" := by
  have h1 : (P ++ cl ".md").reverse = 'd' :: 'm' :: '.' :: P.reverse := by
    simp [cl, List.reverse_append]
  have hPr : P.reverse ≠ [] := by
    simpa using (mt List.reverse_eq_nil_iff.mp hP)
  unfold pySuffix
  rw [h1]
  simp [List.takeWhile, List.dropWhile, hPr]
  decide

theorem pyStem_append_md (P : List Char) (hP : P ≠ []) :
    pyStem (P ++ cl ".md") = P := by
  unfold pyStem
  rw [pySuffix_append_md P hP]
  have hlen : (P ++ cl ".md").length - (cl ".md").length = P.length := by
    simp [cl]
  rw [hlen]
  exact List.take_left P (cl ".md")

theorem withSuffixHtml_append_md (P : List Char) (hP : P ≠ []) :
    withSuffixHtml (P ++ cl ".md") = P ++ cl ".html" := by
  unfold withSuffixHtml
  rw [pyStem_append_md P hP]

/-- C1 (amended): a `README.md` filename under directories D maps to
`D/index.html`, and any other filename `P.md` with a nonempty `P` maps to
`P.html` under the same directories. (The amendment excludes the degenerate
filename `.md`, whose stem is empty: Python's suffix rules treat it as having
no extension, so the code maps it to `.md.html`; see the counterexample.) -/
theorem C1_path_mapper (dirs : List (List Char)) (P : List Char) (hP : P ≠ [])
    (hR : P ++ cl ".md" ≠ cl "README.md") :
    md_to_html_path ⟨dirs, cl "README.md"⟩ = renderPath ⟨dirs, cl "index.html"⟩ ∧
    md_to_html_path ⟨dirs, P ++ cl ".md"⟩ = renderPath ⟨dirs, P ++ cl ".html"⟩ := by
  constructor
  · simp [md_to_html_path]
  · unfold md_to_html_path
    simp only [hR, if_neg]
    rw [withSuffixHtml_append_md P hP]
    simp

/-- C1 counterexample: the claim as stated fails on the markdown source path
`d/.md` (a file named exactly `.md`, which `docs` discovery would pick up):
the claim demands output `d/.html`, but the Path Mapper yields `d/.md.html`. -/
theorem C1_counterexample :
    md_to_html_path ⟨[cl "d"], cl ".md"⟩ = cl "d/.md.html" ∧
    md_to_html_path ⟨[cl "d"], cl ".md"⟩ ≠ cl "d/.html" := by
  decide

/-- C1 witness: the amended theorem applied at the concrete path
`getting-started/install.md`. -/
theorem C1_path_mapper_witness :
    md_to_html_path ⟨[cl "getting-started"], cl "install.md"⟩ =
      cl "getting-started/install.html" := by
  have h := (C1_path_mapper [cl "getting-started"] (cl "install")
    (by decide) (by decide)).2
  exact h

/-- Split a character list at every occurrence of the separator, the way
Python's `str.split(sep)` does (adjacent separators yield empty pieces,
and the result is never the empty list). -/
def splitOnC (sep : Char) : List Char → List (List Char)
  | [] => [[]]
  | c :: r =>
    if c = sep then [] :: splitOnC sep r
    else (c :: (splitOnC sep r).headI) :: (splitOnC sep r).tail

/-- Join pieces with the separator between them (`sep.join(pieces)`). -/
def joinC (sep : Char) : List (List Char) → List Char
  | [] => []
  | [b] => b
  | b :: bs => b ++ sep :: joinC sep bs

theorem splitOnC_ne_nil (sep : Char) (l : List Char) : splitOnC sep l ≠ [] := by
  cases l with
  | nil => simp [splitOnC]
  | cons c r =>
    unfold splitOnC
    by_cases h : c = sep <;> simp [h]

theorem joinC_splitOnC (sep : Char) (l : List Char) :
    joinC sep (splitOnC sep l) = l := by
  induction l with
  | nil => simp [splitOnC, joinC]
  | cons c r ih =>
    unfold splitOnC
    rcases hs : splitOnC sep r with _ | ⟨b, bs⟩
    · exact absurd hs (splitOnC_ne_nil sep r)
    · rw [hs] at ih
      by_cases h : c = sep
      · subst h
        simpa [joinC] using ih
      · simp only [h, if_false, List.headI, List.tail]
        cases bs with
        | nil => simpa [joinC] using ih
        | cons b2 bs2 => simpa [joinC] using ih

theorem mem_splitOnC_not_sep (sep : Char) (l : List Char) :
    ∀ b ∈ splitOnC sep l, sep ∉ b := by
  induction l with
  | nil => simp [splitOnC]
  | cons c r ih =>
    unfold splitOnC
    rcases hs : splitOnC sep r with _ | ⟨b0, bs⟩
    · exact absurd hs (splitOnC_ne_nil sep r)
    · rw [hs] at ih
      by_cases h : c = sep
      · simp only [h, if_pos rfl]
        intro b hb
        rcases List.mem_cons.mp hb with rfl | hb
        · simp
        · exact ih b hb
      · simp only [h, if_false, List.headI, List.tail]
        intro b hb
        rcases List.mem_cons.mp hb with rfl | hb
        · intro hmem
          rcases List.mem_cons.mp hmem with h1 | h1
          · exact h h1.symm
          · exact ih b0 (List.mem_cons_self b0 bs) h1
        · exact ih b (List.mem_cons_of_mem b0 hb)

theorem splitOnC_sepfree (sep : Char) (x : List Char) (hx : sep ∉ x) :
    splitOnC sep x = [x] := by
  induction x with
  | nil => simp [splitOnC]
  | cons c r ih =>
    have hc : c ≠ sep := fun h => hx (h ▸ List.mem_cons_self c r)
    have hr : sep ∉ r := fun h => hx (List.mem_cons_of_mem c h)
    unfold splitOnC
    rw [ih hr]
    simp [hc]

theorem splitOnC_append_sep (sep : Char) (x y : List Char) (hx : sep ∉ x) :
    splitOnC sep (x ++ sep :: y) = x :: splitOnC sep y := by
  induction x with
  | nil =>
    simp only [List.nil_append]
    conv_lhs => rw [splitOnC]
    simp
  | cons c r ih =>
    have hc : c ≠ sep := fun h => hx (h ▸ List.mem_cons_self c r)
    have hr : sep ∉ r := fun h => hx (List.mem_cons_of_mem c h)
    simp only [List.cons_append]
    conv_lhs => rw [splitOnC]
    rw [ih hr]
    simp [hc]

theorem splitOnC_joinC (sep : Char) (bs : List (List Char))
    (h : ∀ b ∈ bs, sep ∉ b) (hne : bs ≠ []) :
    splitOnC sep (joinC sep bs) = bs := by
  induction bs with
  | nil => exact absurd rfl hne
  | cons b bs ih =>
    cases bs with
    | nil =>
      simp only [joinC]
      exact splitOnC_sepfree sep b (h b (List.mem_cons_self b []))
    | cons b2 bs2 =>
      have hb : sep ∉ b := h b (List.mem_cons_self b _)
      have h2 : ∀ x ∈ b2 :: bs2, sep ∉ x := fun x hx => h x (List.mem_cons_of_mem b hx)
      show splitOnC sep (b ++ sep :: joinC sep (b2 :: bs2)) = _
      rw [splitOnC_append_sep sep b _ hb, ih h2 (by simp)]


/-- Backtracking step of the embedded regex `^#\s+(.+)$` (re.MULTILINE).
At a match attempt the characters following `#` are `rest`; the greedy
`\s+` first tries to consume `j` whitespace characters (`j` starts at the
length of the maximal whitespace run and backtracks downward, never to 0).
`(.+)$` then requires the next character to exist and not be a newline,
and captures greedily up to the end of the line, where `$` holds. -/
def findSplit (rest : List Char) : Nat → Option (List Char)
  | 0 => none
  | j + 1 =>
    match rest.drop (j + 1) with
    | [] => findSplit rest j
    | c :: _ =>
      if c = '\n' then findSplit rest j
      else some ((rest.drop (j + 1)).takeWhile (fun x => x ≠ '\n'))

/-- Attempt the regex `#\s+(.+)$` at a position where `^#` has already
matched; `rest` is the text after the `#`.  Returns the captured group. -/
def tryH1 (rest : List Char) : Option (List Char) :=
  findSplit rest (rest.takeWhile isPySpace).length

/-- Scan of `re.search(r'^#\s+(.+)$', content, re.MULTILINE)`: `^` only
matches at a line start, so the scanner visits the lines in order; at a
line starting with `#` it attempts the rest of the pattern against the
whole remaining text (`\s+` may consume newlines and continue on later
lines), and on failure moves to the next line start. -/
def searchGo : List (List Char) → Option (List Char)
  | [] => none
  | l :: ls =>
    if l.head? = some '#' then
      match tryH1 (joinC '\n' (l.tail :: ls)) with
      | some g => some g
      | none => searchGo ls
    else searchGo ls

/-- First match of `re.search(r'^#\s+(.+)$', content, re.MULTILINE)`,
returning the captured group (before `.strip()`). -/
def searchH1 (content : List Char) : Option (List Char) :=
  searchGo (splitOnC '\n' content)

/-- Python `filepath.parent.name`: the last directory component, or the
empty string when there is none (`Path('x.md').parent.name == ''`). -/
def parentName (p : RelPath) : List Char := p.dirs.getLast?.getD []

/-- `get_title_from_markdown` (build_docs.py lines 38-47): the stripped
capture of the first `^#\s+(.+)$` match if any; otherwise the filename
stem — replaced by the parent directory name when the stem is `README` or
`index` — with hyphens/underscores spaced out and title-cased. -/
def get_title_from_markdown (content : List Char) (p : RelPath) : List Char :=
  match searchH1 content with
  | some g => pyStrip g
  | none =>
    let stem := pyStem p.filename
    let name := if stem = cl "README" ∨ stem = cl "index" then parentName p else stem
    pyTitle (replDU name)

/-- A line that begins with `#` immediately followed by a whitespace
character (the only line shape at which the embedded regex can start a
successful match attempt). -/
def startsHashWs (l : List Char) : Bool :=
  match l with
  | c0 :: c1 :: _ => c0 = '#' && isPySpace c1
  | _ => false

/-- A genuine level-1 heading line: `#`, whitespace, then some non-space
text on the same line. -/
def isHeadingLine (l : List Char) : Bool :=
  startsHashWs l && !((l.drop 1).dropWhile isPySpace).isEmpty

theorem dropWhile_head_false {p : Char → Bool} {l : List Char} {d : Char} {ds : List Char}
    (h : l.dropWhile p = d :: ds) : p d = false := by
  induction l with
  | nil => simp [List.dropWhile] at h
  | cons c r ih =>
    rw [List.dropWhile_cons] at h
    by_cases hc : p c
    · simp only [hc, if_true] at h
      exact ih h
    · simp only [hc, if_false] at h
      cases h
      simpa using hc

theorem takeWhile_append_of_dropWhile_ne {p : Char → Bool} {x : List Char} (y : List Char)
    (h : x.dropWhile p ≠ []) : (x ++ y).takeWhile p = x.takeWhile p := by
  rw [List.takeWhile_append]
  have hlt : (x.takeWhile p).length ≠ x.length := by
    intro heq
    have hsum := congrArg List.length (List.takeWhile_append_dropWhile p x)
    simp only [List.length_append] at hsum
    have : (x.dropWhile p).length = 0 := by omega
    exact h (List.eq_nil_of_length_eq_zero this)
  simp [hlt]

theorem drop_takeWhile_length (p : Char → Bool) (l : List Char) :
    l.drop (l.takeWhile p).length = l.dropWhile p := by
  have h := List.drop_left (l.takeWhile p) (l.dropWhile p)
  rw [List.takeWhile_append_dropWhile] at h
  exact h

theorem takeWhile_ne_nl_of_not_mem {l : List Char} (h : '\n' ∉ l) :
    l.takeWhile (fun x => x ≠ '\n') = l := by
  induction l with
  | nil => simp
  | cons c r ih =>
    have hc : c ≠ '\n' := fun hc => h (hc ▸ List.mem_cons_self c r)
    have hr : '\n' ∉ r := fun hr => h (List.mem_cons_of_mem c hr)
    simp [List.takeWhile_cons, hc]
    exact fun x hx hx2 => hr (hx2 ▸ hx)

theorem not_mem_dropWhile {p : Char → Bool} {l : List Char} {a : Char} (h : a ∉ l) :
    a ∉ l.dropWhile p :=
  fun hmem => h ((List.dropWhile_sublist p (l := l)).subset hmem)

theorem pyStrip_dropWhile (l : List Char) :
    pyStrip (l.dropWhile isPySpace) = pyStrip l := by
  unfold pyStrip
  rw [List.dropWhile_idempotent]

theorem tryH1_heading (r tail : List Char)
    (hk : r.takeWhile isPySpace ≠ [])
    (hd : r.dropWhile isPySpace ≠ [])
    (hnl : '\n' ∉ r)
    (htail : tail = [] ∨ ∃ t, tail = '\n' :: t) :
    tryH1 (r ++ tail) = some (r.dropWhile isPySpace) := by
  unfold tryH1
  have htw : (r ++ tail).takeWhile isPySpace = r.takeWhile isPySpace :=
    takeWhile_append_of_dropWhile_ne tail hd
  rw [htw]
  obtain ⟨m, hm⟩ : ∃ m, (r.takeWhile isPySpace).length = m + 1 :=
    Nat.exists_eq_succ_of_ne_zero (fun h0 => hk (List.eq_nil_of_length_eq_zero h0))
  obtain ⟨d, ds, hB⟩ : ∃ d ds, r.dropWhile isPySpace = d :: ds := by
    rcases hBs : r.dropWhile isPySpace with _ | ⟨d, ds⟩
    · exact absurd hBs hd
    · exact ⟨d, ds, rfl⟩
  have hdws : isPySpace d = false := dropWhile_head_false hB
  have hdnl : d ≠ '\n' := by
    intro h
    rw [h] at hdws
    simp [isPySpace] at hdws
  have hBnl : '\n' ∉ r.dropWhile isPySpace := not_mem_dropWhile hnl
  have hdropk : (r ++ tail).drop (m + 1) = r.dropWhile isPySpace ++ tail := by
    conv_lhs => rw [← List.takeWhile_append_dropWhile isPySpace r]
    rw [List.append_assoc, ← hm]
    exact List.drop_left _ _
  have hcap : (r.dropWhile isPySpace ++ tail).takeWhile (fun x => x ≠ '\n') =
      r.dropWhile isPySpace := by
    rcases htail with rfl | ⟨t, rfl⟩
    · rw [List.append_nil]
      exact takeWhile_ne_nl_of_not_mem hBnl
    · rw [List.takeWhile_append]
      have hself : (r.dropWhile isPySpace).takeWhile (fun x => x ≠ '\n') =
          r.dropWhile isPySpace := takeWhile_ne_nl_of_not_mem hBnl
      rw [hself]
      simp
  rw [hm]
  simp only [findSplit, hdropk, hB, List.cons_append]
  rw [if_neg hdnl]
  rw [← List.cons_append, ← hB, hcap]

theorem isHeadingLine_shape {l : List Char} (h : isHeadingLine l = true) :
    ∃ c1 r0, l = '#' :: c1 :: r0 ∧ isPySpace c1 = true ∧
      (c1 :: r0).dropWhile isPySpace ≠ [] := by
  rcases l with _ | ⟨c0, _ | ⟨c1, r0⟩⟩
  · simp [isHeadingLine, startsHashWs] at h
  · simp [isHeadingLine, startsHashWs] at h
  · unfold isHeadingLine startsHashWs at h
    simp only [Bool.and_eq_true, decide_eq_true_eq, Bool.not_eq_true',
      List.drop_succ_cons, List.drop_zero] at h
    obtain ⟨⟨h0, hws⟩, hne⟩ := h
    refine ⟨c1, r0, by rw [h0], hws, ?_⟩
    simpa [List.isEmpty_iff] using hne

theorem searchGo_heading (ls : List (List Char)) (i : Nat) (hi : i < ls.length)
    (hnl : ∀ b ∈ ls, '\n' ∉ b)
    (hfirst : ∀ b ∈ ls.take i, b.head? ≠ some '#')
    (hhead : isHeadingLine (ls.get ⟨i, hi⟩) = true) :
    searchGo ls = some (((ls.get ⟨i, hi⟩).drop 1).dropWhile isPySpace) := by
  induction ls generalizing i with
  | nil => exact absurd hi (by simp)
  | cons l ls ih =>
    cases i with
    | zero =>
      have hh : isHeadingLine l = true := by simpa [List.get] using hhead
      obtain ⟨c1, r0, rfl, hws, hdne⟩ := isHeadingLine_shape hh
      have hknl : (c1 :: r0).takeWhile isPySpace ≠ [] := by
        simp [List.takeWhile_cons, hws]
      have hlnl : '\n' ∉ ('#' :: c1 :: r0) := hnl _ (List.mem_cons_self _ _)
      have hrnl : '\n' ∉ (c1 :: r0) := fun h => hlnl (List.mem_cons_of_mem _ h)
      have hjoin : joinC '\n' ((c1 :: r0) :: ls) =
          (c1 :: r0) ++ (if ls = [] then ([] : List Char) else '\n' :: joinC '\n' ls) := by
        cases ls with
        | nil => simp [joinC]
        | cons b bs => simp [joinC]
      have htail : (if ls = [] then ([] : List Char) else '\n' :: joinC '\n' ls) = [] ∨
          ∃ t, (if ls = [] then ([] : List Char) else '\n' :: joinC '\n' ls) = '\n' :: t := by
        cases ls with
        | nil => exact Or.inl (by simp)
        | cons b bs => exact Or.inr ⟨joinC '\n' (b :: bs), by simp⟩
      simp only [searchGo, List.head?_cons, List.tail_cons]
      rw [if_pos trivial, hjoin, tryH1_heading (c1 :: r0) _ hknl hdne hrnl htail]
      simp [List.get]
    | succ j =>
      have hhd : l.head? ≠ some '#' :=
        hfirst l (by simp [List.take_succ_cons])
      have hi' : j < ls.length := Nat.lt_of_succ_lt_succ hi
      have step : searchGo (l :: ls) = searchGo ls := by
        simp only [searchGo]
        rw [if_neg hhd]
      rw [step]
      have hget : (l :: ls).get ⟨j + 1, hi⟩ = ls.get ⟨j, hi'⟩ := rfl
      rw [hget] at hhead ⊢
      exact ih j hi' (fun b hb => hnl b (List.mem_cons_of_mem l hb))
        (fun b hb => hfirst b (by simp [List.take_succ_cons, hb]))
        hhead

/-- C3 (amended): whenever the first line of the document that starts with
`#` is a genuine level-1 heading (`#`, whitespace, then text on the same
line), the Title Extractor returns that heading's trimmed text verbatim,
regardless of where it appears in the document.  (The amendment requires
the earlier lines not to start with `#` at all: a bare `#` line lets the
regex's `\s+` consume the newline and capture a later line instead — see
the counterexample.) -/
theorem C3_title_extractor (p : RelPath) (ls : List (List Char)) (i : Nat)
    (hi : i < ls.length)
    (hnl : ∀ b ∈ ls, '\n' ∉ b)
    (hfirst : ∀ b ∈ ls.take i, b.head? ≠ some '#')
    (hhead : isHeadingLine (ls.get ⟨i, hi⟩) = true) :
    get_title_from_markdown (joinC '\n' ls) p = pyStrip ((ls.get ⟨i, hi⟩).drop 1) := by
  have hne : ls ≠ [] := by
    intro h
    rw [h] at hi
    exact absurd hi (by simp)
  unfold get_title_from_markdown searchH1
  rw [splitOnC_joinC '\n' ls hnl hne,
    searchGo_heading ls i hi hnl hfirst hhead]
  exact pyStrip_dropWhile _

/-- C3 counterexample: in `"#\nX\n# Real"` the only level-1 heading line is
`# Real`, whose trimmed text is `Real`; but the Title Extractor returns `X`,
because the regex match starting at the bare `#` line consumes the newline
with `\s+` and captures the following line. -/
theorem C3_counterexample :
    splitOnC '\n' (cl "#\nX\n# Real") = [cl "#", cl "X", cl "# Real"] ∧
    isHeadingLine (cl "#") = false ∧
    isHeadingLine (cl "X") = false ∧
    isHeadingLine (cl "# Real") = true ∧
    get_title_from_markdown (cl "#\nX\n# Real") ⟨[], cl "a.md"⟩ = cl "X" ∧
    cl "X" ≠ cl "Real" := by
  decide

/-- C3 witness: the amended theorem applied to a two-line document whose
second line is the heading `#  My Title `. -/
theorem C3_title_extractor_witness :
    get_title_from_markdown (cl "intro\n#  My Title ") ⟨[], cl "x.md"⟩ =
      cl "My Title" := by
  have h := C3_title_extractor ⟨[], cl "x.md"⟩ [cl "intro", cl "#  My Title "] 1
    (by decide) (by decide) (by decide) (by decide)
  exact h.trans (by decide)

theorem pySuffix_length_lt (name : List Char) (h : name ≠ []) :
    (pySuffix name).length < name.length := by
  have hpos : 0 < name.length := List.length_pos.mpr h
  unfold pySuffix
  by_cases hcond : name.reverse.dropWhile (fun c => c ≠ '.') = [] ∨
      name.reverse.takeWhile (fun c => c ≠ '.') = [] ∨
      (name.reverse.dropWhile (fun c => c ≠ '.')).tail = []
  · rw [if_pos hcond]
    simpa using hpos
  · rw [if_neg hcond]
    push_neg at hcond
    obtain ⟨h1, _, h3⟩ := hcond
    have hjoin := List.takeWhile_append_dropWhile (fun c => decide (c ≠ '.')) name.reverse
    have hlen := congrArg List.length hjoin
    simp only [List.length_append, List.length_reverse] at hlen
    have hd2 : 2 ≤ (name.reverse.dropWhile (fun c => decide (c ≠ '.'))).length := by
      rcases hrest : name.reverse.dropWhile (fun c => decide (c ≠ '.')) with _ | ⟨c, before⟩
      · exact absurd hrest h1
      · rw [hrest] at h3
        have : before ≠ [] := by simpa using h3
        have : 0 < before.length := List.length_pos.mpr this
        simp only [List.length_cons]
        omega
    simp only [List.length_cons, List.length_reverse]
    omega

theorem pyStem_ne_nil (name : List Char) (h : name ≠ []) : pyStem name ≠ [] := by
  unfold pyStem
  have hlt := pySuffix_length_lt name h
  intro hnil
  rcases List.take_eq_nil_iff.mp hnil with h0 | h0
  · omega
  · exact h h0

theorem pyTitleGo_length (b : Bool) (l : List Char) :
    (pyTitleGo b l).length = l.length := by
  induction l generalizing b with
  | nil => rfl
  | cons c r ih =>
    unfold pyTitleGo
    by_cases hc : c.isAlpha <;> simp [hc, ih]

theorem pyTitle_replDU_ne_nil (x : List Char) (h : x ≠ []) :
    pyTitle (replDU x) ≠ [] := by
  intro hnil
  have hlen := congrArg List.length hnil
  rw [pyTitle, pyTitleGo_length] at hlen
  simp only [replDU, List.length_map, List.length_nil] at hlen
  exact h (List.eq_nil_of_length_eq_zero hlen)

/-- C4 (amended): the Title Extractor returns a non-empty string for every
path with a non-empty filename, provided that (a) when the heading regex
matches, the captured text is not all whitespace, and (b) when the fallback
name is the parent directory (stem `README`/`index`), that directory name is
non-empty.  Both provisos are forced: a heading whose text is pure
whitespace strips to the empty string (see the counterexample), and a bare
`README.md` with no parent directory falls back to the empty `parent.name`. -/
theorem C4_title_nonempty (content : List Char) (p : RelPath)
    (hname : p.filename ≠ [])
    (hpar : (pyStem p.filename = cl "README" ∨ pyStem p.filename = cl "index") →
      parentName p ≠ [])
    (hcap : ∀ g, searchH1 content = some g → pyStrip g ≠ []) :
    get_title_from_markdown content p ≠ [] := by
  unfold get_title_from_markdown
  cases hs : searchH1 content with
  | some g => exact hcap g hs
  | none =>
    by_cases hb : pyStem p.filename = cl "README" ∨ pyStem p.filename = cl "index"
    · simp only [hb, if_pos]
      exact pyTitle_replDU_ne_nil _ (hpar hb)
    · simp only [hb, if_neg, if_false]
      exact pyTitle_replDU_ne_nil _ (pyStem_ne_nil _ hname)

/-- C4 counterexample: on the document `"#  "` (a `#` followed only by
whitespace) the regex still matches — `\s+` backtracks to a single space so
that `(.+)` can capture the remaining space — and the stripped capture is
empty.  The Title Extractor hence returns the empty string even for the
well-formed non-empty filename `guide.md`. -/
theorem C4_counterexample :
    cl "guide.md" ≠ [] ∧
    get_title_from_markdown (cl "#  ") ⟨[cl "docs"], cl "guide.md"⟩ = [] := by
  decide

/-- C4 witness: the amended theorem applied to a heading-free document at the
path `foo/README.md` (the result is in fact `Foo`). -/
theorem C4_title_nonempty_witness :
    get_title_from_markdown (cl "no heading here") ⟨[cl "foo"], cl "README.md"⟩ ≠ [] := by
  apply C4_title_nonempty
  · decide
  · intro _
    decide
  · intro g hg
    rw [show searchH1 (cl "no heading here") = none from by decide] at hg
    exact Option.noConfusion hg

/-- One pass of `re.sub` for the link patterns, restricted to a single
`)`-free block.  All three regexes in `convert_internal_links` have the form
`\](\(...\))` — a literal `](`, a run of non-`)` characters constrained by
the pattern, then a literal `)`.  Splitting the text at `)` therefore
isolates the match candidates: inside a block (whose closing `)` follows it
in the original text) a match starting at a `](` must extend exactly to the
block's end, because the `[^)]`-runs and the literal tails contain no `)`.
The scanner walks the block left to right; at each `](` it asks the
chunk-rewriter `f` whether the rest of the block matches, rewrites and
stops if so (the match consumes the rest of the block up to the closing
`)`), and otherwise advances one character, exactly like `re.sub`'s scan. -/
def rewriteBlock (f : List Char → Option (List Char)) : List Char → List Char
  | [] => []
  | c :: rest =>
    if c = ']' ∧ rest.head? = some '(' then
      match f rest.tail with
      | some r2 => ']' :: '(' :: r2
      | none => c :: rewriteBlock f rest
    else
      c :: rewriteBlock f rest

/-- Apply the block rewriter to every block except the last: the final
block has no closing `)` after it, so no match can end there. -/
def mapBlocks (f : List Char → Option (List Char)) : List (List Char) → List (List Char)
  | [] => []
  | [b] => [b]
  | b :: bs => rewriteBlock f b :: mapBlocks f bs

/-- One `re.sub` pass over the whole text for a link pattern: split at `)`,
rewrite each properly closed block, and rejoin. -/
def subLink (f : List Char → Option (List Char)) (s : List Char) : List Char :=
  joinC ')' (mapBlocks f (splitOnC ')' s))

/-- Chunk condition of `re.sub(r'\]\(([^)]+)\.md\)', r'](\1.html)', ...)`:
the non-`)` chunk must end in `.md` with a nonempty group before it; the
group keeps its text and the extension becomes `.html`.  Working on the
reversed chunk makes the suffix test a prefix pattern. -/
def mdChunk (r : List Char) : Option (List Char) :=
  if r.reverse.take 3 = cl "dm." ∧ 4 ≤ r.length then
    some ((r.reverse.drop 3).reverse ++ cl ".html")
  else none

/-- Chunk condition of `re.sub(r'\]\(([^)]*)/README\.html\)', r'](\1/index.html)', ...)`:
the chunk must end in `/README.html` (the group before it may be empty);
the `README` becomes `index`. -/
def readmeChunk (r : List Char) : Option (List Char) :=
  if r.reverse.take 12 = cl "lmth.EMDAER/" then
    some ((r.reverse.drop 12).reverse ++ cl "/index.html")
  else none

/-- Chunk condition of `re.sub(r'\]\(README\.html\)', r'](index.html)', ...)`:
the chunk must be exactly `README.html`. -/
def bareChunk (r : List Char) : Option (List Char) :=
  if r = cl "README.html" then some (cl "index.html") else none

/-- `convert_internal_links` (build_docs.py lines 136-143): the three
`re.sub` passes applied in order. -/
def convert_internal_links (content : List Char) : List Char :=
  subLink bareChunk (subLink readmeChunk (subLink mdChunk content))

theorem mdChunk_nil : mdChunk [] = none := rfl

theorem mdChunk_eq_none (z : List Char) (h : z.getLast? ≠ some 'd') :
    mdChunk z = none := by
  unfold mdChunk
  rw [if_neg]
  rintro ⟨h1, _⟩
  apply h
  rw [List.getLast?_eq_head?_reverse]
  rcases hz : z.reverse with _ | ⟨c, cs⟩
  · rw [hz] at h1
    exact absurd h1 (by decide)
  · rw [hz] at h1
    simp only [List.take_succ_cons] at h1
    have hc : c = 'd' := (List.cons.injEq _ _ _ _ ▸ h1).1
    rw [hc]
    rfl

theorem readmeChunk_eq_none (z : List Char) (h : z.reverse.take 6 ≠ cl "lmth.E") :
    readmeChunk z = none := by
  unfold readmeChunk
  rw [if_neg]
  intro h12
  apply h
  have : z.reverse.take 6 = (z.reverse.take 12).take 6 := by
    rw [List.take_take]
    norm_num
  rw [this, h12]
  decide

theorem bareChunk_eq_none (z : List Char) (h : z.reverse.take 6 ≠ cl "lmth.E") :
    bareChunk z = none := by
  unfold bareChunk
  rw [if_neg]
  intro he
  subst he
  exact h (by decide)

theorem getLast?_suffix {v x : List Char} (hs : v <:+ x) (hv : v ≠ []) :
    v.getLast? = x.getLast? := by
  obtain ⟨t, rfl⟩ := hs
  rw [List.getLast?_append]
  cases hg : v.getLast? with
  | none => exact absurd (List.getLast?_eq_none_iff.mp hg) hv
  | some c => rfl

theorem reverse_take6_suffix {v x : List Char} (hs : v <:+ x) (hv : 6 ≤ v.length) :
    v.reverse.take 6 = x.reverse.take 6 := by
  obtain ⟨t, ht⟩ := List.reverse_prefix.mpr hs
  rw [← ht, List.take_append_eq_append_take]
  have h0 : 6 - v.reverse.length = 0 := by
    simp only [List.length_reverse]
    omega
  rw [h0]
  simp

theorem none_md_of_ends {x : List Char} (hx : x.getLast? = some 'l') :
    ∀ v, v <:+ x → mdChunk v = none := by
  intro v hv
  rcases eq_or_ne v [] with rfl | hne
  · exact mdChunk_nil
  · apply mdChunk_eq_none
    rw [getLast?_suffix hv hne, hx]
    decide

theorem bareChunk_eq_none_take6 (z : List Char) (h : z.reverse.take 6 ≠ cl "lmth.E") :
    bareChunk z = none := by
  unfold bareChunk
  rw [if_neg]
  intro he
  subst he
  exact h (by decide)

theorem head?_eq_some_cons {a : Char} {l : List Char} (h : l.head? = some a) :
    l = a :: l.tail := by
  cases l with
  | nil => exact absurd h (by simp)
  | cons b w =>
    simp only [List.head?_cons, Option.some.injEq] at h
    rw [h]
    rfl

theorem rewriteBlock_nil (f : List Char → Option (List Char)) :
    rewriteBlock f [] = [] := rfl

theorem rewriteBlock_cons_pos (f : List Char → Option (List Char)) (w r2 : List Char)
    (h : f w = some r2) :
    rewriteBlock f (']' :: '(' :: w) = ']' :: '(' :: r2 := by
  unfold rewriteBlock
  rw [if_pos ⟨rfl, rfl⟩]
  simp [h]

theorem rewriteBlock_cons_neg (f : List Char → Option (List Char)) (w : List Char)
    (h : f w = none) :
    rewriteBlock f (']' :: '(' :: w) = ']' :: rewriteBlock f ('(' :: w) := by
  unfold rewriteBlock
  rw [if_pos ⟨rfl, rfl⟩]
  simp only [List.tail_cons, h]
  rfl

theorem rewriteBlock_cons_other (f : List Char → Option (List Char)) (c : Char)
    (rest : List Char) (h : ¬(c = ']' ∧ rest.head? = some '(')) :
    rewriteBlock f (c :: rest) = c :: rewriteBlock f rest := by
  conv_lhs => rw [rewriteBlock]
  rw [if_neg h]

theorem rewriteBlock_paren (f : List Char → Option (List Char)) (w : List Char) :
    rewriteBlock f ('(' :: w) = '(' :: rewriteBlock f w :=
  rewriteBlock_cons_other f '(' w (by simp)

theorem rewriteBlock_head? (f : List Char → Option (List Char)) (x : List Char) :
    (rewriteBlock f x).head? = x.head? := by
  cases x with
  | nil => rfl
  | cons c rest =>
    by_cases hc : c = ']' ∧ rest.head? = some '('
    · obtain ⟨rfl, hc2⟩ := hc
      rw [head?_eq_some_cons hc2]
      cases hf : f rest.tail with
      | some r2 =>
        rw [rewriteBlock_cons_pos f _ _ hf]
        rfl
      | none =>
        rw [rewriteBlock_cons_neg f _ hf]
        rfl
    · rw [rewriteBlock_cons_other f c rest hc]
      rfl

/-- If no position of the block carries a successful chunk for `f`, the
block rewriter leaves it unchanged. -/
theorem rewriteBlock_eq_self (f : List Char → Option (List Char)) (x : List Char)
    (hS : ∀ u v, x = u ++ ']' :: '(' :: v → f v = none) :
    rewriteBlock f x = x := by
  induction x with
  | nil => rfl
  | cons c rest ih =>
    have hrec : rewriteBlock f rest = rest := by
      apply ih
      intro u v huv
      exact hS (c :: u) v (by rw [huv]; rfl)
    by_cases hc : c = ']' ∧ rest.head? = some '('
    · obtain ⟨rfl, hc2⟩ := hc
      have hrest : rest = '(' :: rest.tail := head?_eq_some_cons hc2
      have hf : f rest.tail = none := hS [] rest.tail (by rw [← hrest]; rfl)
      rw [hrest, rewriteBlock_cons_neg f _ hf, rewriteBlock_paren]
      rw [hrest] at hrec
      rw [rewriteBlock_paren] at hrec
      rw [List.cons.injEq] at hrec
      rw [hrec.2]
    · rw [rewriteBlock_cons_other f c rest hc, hrec]

/-- Either the block rewriter fires nowhere (identity), or its output ends
with a replacement produced by `f` right after a `](`. -/
theorem rewriteBlock_fire (f : List Char → Option (List Char)) (x : List Char) :
    rewriteBlock f x = x ∨
    ∃ A r r2, f r = some r2 ∧ rewriteBlock f x = A ++ ']' :: '(' :: r2 := by
  induction x with
  | nil => exact Or.inl rfl
  | cons c rest ih =>
    by_cases hc : c = ']' ∧ rest.head? = some '('
    · obtain ⟨rfl, hc2⟩ := hc
      have hrest : rest = '(' :: rest.tail := head?_eq_some_cons hc2
      cases hf : f rest.tail with
      | some r2 =>
        refine Or.inr ⟨[], rest.tail, r2, hf, ?_⟩
        rw [hrest, rewriteBlock_cons_pos f _ _ hf]
        rfl
      | none =>
        rw [hrest, rewriteBlock_cons_neg f _ hf, rewriteBlock_paren]
        rw [hrest] at ih
        rw [rewriteBlock_paren] at ih
        rcases ih with h | ⟨A, r, r2, hfr, hout⟩
        · rw [List.cons.injEq] at h
          rw [h.2, ← hrest]
          exact Or.inl rfl
        · cases A with
          | nil =>
            exfalso
            rw [List.nil_append] at hout
            have := (List.cons.injEq _ _ _ _ ▸ hout).1
            exact absurd this (by decide)
          | cons a A2 =>
            rw [List.cons_append, List.cons.injEq] at hout
            rw [hout.2]
            exact Or.inr ⟨']' :: '(' :: A2, r, r2, hfr, rfl⟩
    · rw [rewriteBlock_cons_other f c rest hc]
      rcases ih with h | ⟨A, r, r2, hfr, hout⟩
      · exact Or.inl (by rw [h])
      · exact Or.inr ⟨c :: A, r, r2, hfr, by rw [hout]; rfl⟩

theorem rewriteBlock_not_mem (f : List Char → Option (List Char)) (a : Char)
    (hf : ∀ r r2, f r = some r2 → a ∉ r → a ∉ r2)
    (ha1 : a ≠ ']') (ha2 : a ≠ '(') :
    ∀ x : List Char, a ∉ x → a ∉ rewriteBlock f x := by
  intro x
  induction x with
  | nil =>
    intro _
    rw [rewriteBlock_nil]
    simp
  | cons c rest ih =>
    intro hx
    have hcx : a ≠ c := fun h => hx (h ▸ List.mem_cons_self c rest)
    have hrx : a ∉ rest := fun h => hx (List.mem_cons_of_mem c h)
    by_cases hc : c = ']' ∧ rest.head? = some '('
    · obtain ⟨rfl, hc2⟩ := hc
      have hrest : rest = '(' :: rest.tail := head?_eq_some_cons hc2
      have htx : a ∉ rest.tail := by
        rw [hrest] at hrx
        exact fun h => hrx (List.mem_cons_of_mem _ h)
      cases hfc : f rest.tail with
      | some r2 =>
        rw [hrest, rewriteBlock_cons_pos f _ _ hfc]
        intro hmem
        rcases List.mem_cons.mp hmem with h | hmem
        · exact ha1 h
        · rcases List.mem_cons.mp hmem with h | hmem
          · exact ha2 h
          · exact hf _ _ hfc htx hmem
      | none =>
        rw [hrest, rewriteBlock_cons_neg f _ hfc, rewriteBlock_paren]
        have hih : a ∉ rewriteBlock f rest.tail := by
          have h0 := ih hrx
          rw [hrest, rewriteBlock_paren] at h0
          exact fun h => h0 (List.mem_cons_of_mem _ h)
        intro hmem
        rcases List.mem_cons.mp hmem with h | hmem
        · exact ha1 h
        · rcases List.mem_cons.mp hmem with h | hmem
          · exact ha2 h
          · exact hih hmem
    · rw [rewriteBlock_cons_other f c rest hc]
      intro hmem
      rcases List.mem_cons.mp hmem with h | hmem
      · exact hcx h
      · exact ih hrx hmem

/-- Generic idempotence of one `re.sub` pass at block level: if every text
ending in a replacement produced by `f` (and every suffix of such a text)
fails `f`'s chunk condition, then rewriting a block twice equals rewriting
it once. -/
theorem rewriteBlock_idem_of (f : List Char → Option (List Char))
    (hrepl : ∀ r r2, f r = some r2 → ∀ t v, v <:+ t ++ r2 → f v = none) :
    ∀ x : List Char, rewriteBlock f (rewriteBlock f x) = rewriteBlock f x := by
  suffices H : ∀ n (x : List Char), x.length ≤ n →
      rewriteBlock f (rewriteBlock f x) = rewriteBlock f x by
    exact fun x => H x.length x le_rfl
  intro n
  induction n with
  | zero =>
    intro x hx
    have hxe : x = [] := List.eq_nil_of_length_eq_zero (Nat.le_zero.mp hx)
    subst hxe
    rfl
  | succ n ih =>
    intro x hx
    cases x with
    | nil => rfl
    | cons c rest =>
      by_cases hc : c = ']' ∧ rest.head? = some '('
      · obtain ⟨rfl, hc2⟩ := hc
        have hrest : rest = '(' :: rest.tail := head?_eq_some_cons hc2
        cases hf : f rest.tail with
        | some r2 =>
          rw [hrest, rewriteBlock_cons_pos f _ _ hf]
          have hf2 : f r2 = none := by
            apply hrepl _ _ hf [] r2
            rw [List.nil_append]
          have hself : rewriteBlock f r2 = r2 := by
            apply rewriteBlock_eq_self
            intro u v huv
            apply hrepl _ _ hf [] v
            rw [List.nil_append, huv]
            exact ⟨u ++ [']', '('], by simp⟩
          rw [rewriteBlock_cons_neg f _ hf2, rewriteBlock_paren, hself]
        | none =>
          rw [hrest, rewriteBlock_cons_neg f _ hf, rewriteBlock_paren]
          have hnone : f (rewriteBlock f rest.tail) = none := by
            rcases rewriteBlock_fire f rest.tail with hid | ⟨A, r, r2, hfr, hout⟩
            · rw [hid]
              exact hf
            · rw [hout]
              apply hrepl _ _ hfr (A ++ [']', '(']) _
              exact ⟨[], by simp⟩
          rw [rewriteBlock_cons_neg f _ hnone, rewriteBlock_paren]
          have hlen2 : rest.tail.length ≤ n := by
            rw [hrest] at hx
            simp only [List.length_cons] at hx
            omega
          rw [ih rest.tail hlen2]
      · rw [rewriteBlock_cons_other f c rest hc]
        have hcond2 : ¬(c = ']' ∧ (rewriteBlock f rest).head? = some '(') := by
          rw [rewriteBlock_head?]
          exact hc
        rw [rewriteBlock_cons_other f c _ hcond2]
        have hlen2 : rest.length ≤ n := by
          simp only [List.length_cons] at hx
          omega
        rw [ih rest hlen2]

/-- Generic preservation: a later `re.sub` pass `g` cannot create a match
for an earlier pass `f`, because every `g`-replacement (and every text
ending in one, and every suffix thereof) fails `f`'s chunk condition. -/
theorem rewriteBlock_pres_of (f g : List Char → Option (List Char))
    (hrepl : ∀ r r2, g r = some r2 → ∀ t v, v <:+ t ++ r2 → f v = none)
    (hne : ∀ r r2, f r = some r2 → r2 ≠ r) :
    ∀ x : List Char, rewriteBlock f x = x →
      rewriteBlock f (rewriteBlock g x) = rewriteBlock g x := by
  suffices H : ∀ n (x : List Char), x.length ≤ n → rewriteBlock f x = x →
      rewriteBlock f (rewriteBlock g x) = rewriteBlock g x by
    exact fun x => H x.length x le_rfl
  intro n
  induction n with
  | zero =>
    intro x hx _
    have hxe : x = [] := List.eq_nil_of_length_eq_zero (Nat.le_zero.mp hx)
    subst hxe
    rfl
  | succ n ih =>
    intro x hx hfix
    cases x with
    | nil => rfl
    | cons c rest =>
      by_cases hc : c = ']' ∧ rest.head? = some '('
      · obtain ⟨rfl, hc2⟩ := hc
        have hrest : rest = '(' :: rest.tail := head?_eq_some_cons hc2
        have hfw : f rest.tail = none ∧ rewriteBlock f rest.tail = rest.tail := by
          rw [hrest] at hfix
          cases hfw0 : f rest.tail with
          | some rf =>
            rw [rewriteBlock_cons_pos f _ _ hfw0, List.cons.injEq, List.cons.injEq] at hfix
            exact absurd hfix.2.2 (hne _ _ hfw0)
          | none =>
            rw [rewriteBlock_cons_neg f _ hfw0, rewriteBlock_paren,
              List.cons.injEq, List.cons.injEq] at hfix
            exact ⟨rfl, hfix.2.2⟩
        cases hg : g rest.tail with
        | some r2 =>
          rw [hrest, rewriteBlock_cons_pos g _ _ hg]
          have hf2 : f r2 = none := by
            apply hrepl _ _ hg [] r2
            rw [List.nil_append]
          have hself : rewriteBlock f r2 = r2 := by
            apply rewriteBlock_eq_self
            intro u v huv
            apply hrepl _ _ hg [] v
            rw [List.nil_append, huv]
            exact ⟨u ++ [']', '('], by simp⟩
          rw [rewriteBlock_cons_neg f _ hf2, rewriteBlock_paren, hself]
        | none =>
          rw [hrest, rewriteBlock_cons_neg g _ hg, rewriteBlock_paren]
          have hnone : f (rewriteBlock g rest.tail) = none := by
            rcases rewriteBlock_fire g rest.tail with hid | ⟨A, r, r2, hgr, hout⟩
            · rw [hid]
              exact hfw.1
            · rw [hout]
              apply hrepl _ _ hgr (A ++ [']', '(']) _
              exact ⟨[], by simp⟩
          rw [rewriteBlock_cons_neg f _ hnone, rewriteBlock_paren]
          have hlen2 : rest.tail.length ≤ n := by
            rw [hrest] at hx
            simp only [List.length_cons] at hx
            omega
          rw [ih rest.tail hlen2 hfw.2]
      · rw [rewriteBlock_cons_other g c rest hc]
        have hfixr : rewriteBlock f rest = rest := by
          rw [rewriteBlock_cons_other f c rest hc, List.cons.injEq] at hfix
          exact hfix.2
        have hcond2 : ¬(c = ']' ∧ (rewriteBlock g rest).head? = some '(') := by
          rw [rewriteBlock_head?]
          exact hc
        rw [rewriteBlock_cons_other f c _ hcond2]
        have hlen2 : rest.length ≤ n := by
          simp only [List.length_cons] at hx
          omega
        rw [ih rest hlen2 hfixr]

theorem mdChunk_some_shape {r r2 : List Char} (h : mdChunk r = some r2) :
    r2 = (r.reverse.drop 3).reverse ++ cl ".html" ∧
    r.reverse.take 3 = cl "dm." ∧ 4 ≤ r.length := by
  unfold mdChunk at h
  by_cases hc : r.reverse.take 3 = cl "dm." ∧ 4 ≤ r.length
  · rw [if_pos hc] at h
    exact ⟨(Option.some.inj h).symm, hc.1, hc.2⟩
  · rw [if_neg hc] at h
    exact absurd h (by simp)

theorem readmeChunk_some_shape {r r2 : List Char} (h : readmeChunk r = some r2) :
    r2 = (r.reverse.drop 12).reverse ++ cl "/index.html" ∧
    r.reverse.take 12 = cl "lmth.EMDAER/" := by
  unfold readmeChunk at h
  by_cases hc : r.reverse.take 12 = cl "lmth.EMDAER/"
  · rw [if_pos hc] at h
    exact ⟨(Option.some.inj h).symm, hc⟩
  · rw [if_neg hc] at h
    exact absurd h (by simp)

theorem bareChunk_some_shape {r r2 : List Char} (h : bareChunk r = some r2) :
    r = cl "README.html" ∧ r2 = cl "index.html" := by
  unfold bareChunk at h
  by_cases hc : r = cl "README.html"
  · rw [if_pos hc] at h
    exact ⟨hc, (Option.some.inj h).symm⟩
  · rw [if_neg hc] at h
    exact absurd h (by simp)

theorem ends_getLast {s : List Char} {c : Char} (t : List Char)
    (hs : s.getLast? = some c) : (t ++ s).getLast? = some c := by
  rw [List.getLast?_append, hs]
  rfl

theorem take6_ne_short {v : List Char} (h : v.length < 6) :
    v.reverse.take 6 ≠ cl "lmth.E" := by
  intro he
  have hlen := congrArg List.length he
  simp only [List.length_take, List.length_reverse] at hlen
  have : (cl "lmth.E").length = 6 := by decide
  omega

theorem take6_of_ends_index (w : List Char) :
    (w ++ cl "index.html").reverse.take 6 = cl "lmth.x" := by
  rw [List.reverse_append]
  have : (cl "index.html").reverse = cl "lmth.xedni" := by decide
  rw [this, List.take_append_eq_append_take]
  have h0 : 6 - (cl "lmth.xedni").length = 0 := by decide
  rw [h0, List.take_zero, List.append_nil]
  decide

/-- Any suffix of a text ending in `index.html` fails both the
`/README.html` condition and the bare `README.html` condition. -/
theorem none_rdbare_of_ends_index {z : List Char} (w : List Char)
    (hz : z = w ++ cl "index.html") :
    ∀ v, v <:+ z → readmeChunk v = none ∧ bareChunk v = none := by
  intro v hv
  by_cases h6 : 6 ≤ v.length
  · have h1 := reverse_take6_suffix hv h6
    have hz6 : z.reverse.take 6 = cl "lmth.x" := by
      rw [hz]
      exact take6_of_ends_index w
    have hne : v.reverse.take 6 ≠ cl "lmth.E" := by
      rw [h1, hz6]
      decide
    exact ⟨readmeChunk_eq_none v hne, bareChunk_eq_none_take6 v hne⟩
  · have hne := take6_ne_short (v := v) (by omega)
    exact ⟨readmeChunk_eq_none v hne, bareChunk_eq_none_take6 v hne⟩

theorem none_md_of_repl {g : List Char → Option (List Char)}
    (hends : ∀ r r2, g r = some r2 → ∃ X, r2 = X ++ cl ".html" ∨ r2 = X ++ cl "/index.html" ∨ r2 = X ++ cl "index.html") :
    ∀ r r2, g r = some r2 → ∀ t v, v <:+ t ++ r2 → mdChunk v = none := by
  intro r r2 h t v hv
  obtain ⟨X, hX⟩ := hends r r2 h
  have hlast : (t ++ r2).getLast? = some 'l' := by
    rcases hX with hX | hX | hX <;>
      (rw [hX, ← List.append_assoc]; exact ends_getLast _ (by decide))
  exact none_md_of_ends hlast v hv

theorem mdChunk_repl_ends : ∀ r r2, mdChunk r = some r2 →
    ∃ X, r2 = X ++ cl ".html" ∨ r2 = X ++ cl "/index.html" ∨ r2 = X ++ cl "index.html" := by
  intro r r2 h
  exact ⟨(r.reverse.drop 3).reverse, Or.inl (mdChunk_some_shape h).1⟩

theorem readmeChunk_repl_ends : ∀ r r2, readmeChunk r = some r2 →
    ∃ X, r2 = X ++ cl ".html" ∨ r2 = X ++ cl "/index.html" ∨ r2 = X ++ cl "index.html" := by
  intro r r2 h
  exact ⟨(r.reverse.drop 12).reverse, Or.inr (Or.inl (readmeChunk_some_shape h).1)⟩

theorem bareChunk_repl_ends : ∀ r r2, bareChunk r = some r2 →
    ∃ X, r2 = X ++ cl ".html" ∨ r2 = X ++ cl "/index.html" ∨ r2 = X ++ cl "index.html" := by
  intro r r2 h
  exact ⟨[], Or.inr (Or.inr (by rw [(bareChunk_some_shape h).2]; rfl))⟩

theorem none_rdbare_of_rd : ∀ r r2, readmeChunk r = some r2 →
    ∀ t v, v <:+ t ++ r2 → readmeChunk v = none ∧ bareChunk v = none := by
  intro r r2 h t v hv
  obtain ⟨hX, _⟩ := readmeChunk_some_shape h
  apply none_rdbare_of_ends_index (t ++ ((r.reverse.drop 12).reverse ++ ['/'])) _ v hv
  rw [hX]
  have hsl : cl "/index.html" = '/' :: cl "index.html" := by decide
  rw [hsl]
  simp

theorem none_rdbare_of_bare : ∀ r r2, bareChunk r = some r2 →
    ∀ t v, v <:+ t ++ r2 → readmeChunk v = none ∧ bareChunk v = none := by
  intro r r2 h t v hv
  apply none_rdbare_of_ends_index t _ v hv
  rw [(bareChunk_some_shape h).2]

theorem mdChunk_ne : ∀ r r2, mdChunk r = some r2 → r2 ≠ r := by
  intro r r2 h heq
  obtain ⟨hX, _, h4⟩ := mdChunk_some_shape h
  have hlen := congrArg List.length heq
  rw [hX] at hlen
  simp only [List.length_append, List.length_reverse, List.length_drop] at hlen
  have h5 : (cl ".html").length = 5 := by decide
  omega

theorem readmeChunk_ne : ∀ r r2, readmeChunk r = some r2 → r2 ≠ r := by
  intro r r2 h heq
  obtain ⟨hX, h12⟩ := readmeChunk_some_shape h
  have hlen12 := congrArg List.length h12
  simp only [List.length_take, List.length_reverse] at hlen12
  have h12' : (cl "lmth.EMDAER/").length = 12 := by decide
  have hr12 : 12 ≤ r.length := by omega
  have hlen := congrArg List.length heq
  rw [hX] at hlen
  simp only [List.length_append, List.length_reverse, List.length_drop] at hlen
  have h11 : (cl "/index.html").length = 11 := by decide
  omega

theorem block_idem_md (b : List Char) :
    rewriteBlock mdChunk (rewriteBlock mdChunk b) = rewriteBlock mdChunk b :=
  rewriteBlock_idem_of mdChunk (none_md_of_repl mdChunk_repl_ends) b

theorem block_idem_rd (b : List Char) :
    rewriteBlock readmeChunk (rewriteBlock readmeChunk b) = rewriteBlock readmeChunk b :=
  rewriteBlock_idem_of readmeChunk
    (fun r r2 h t v hv => (none_rdbare_of_rd r r2 h t v hv).1) b

theorem block_idem_bare (b : List Char) :
    rewriteBlock bareChunk (rewriteBlock bareChunk b) = rewriteBlock bareChunk b :=
  rewriteBlock_idem_of bareChunk
    (fun r r2 h t v hv => (none_rdbare_of_bare r r2 h t v hv).2) b

theorem block_composite (b : List Char) :
    rewriteBlock bareChunk (rewriteBlock readmeChunk (rewriteBlock mdChunk
      (rewriteBlock bareChunk (rewriteBlock readmeChunk (rewriteBlock mdChunk b))))) =
    rewriteBlock bareChunk (rewriteBlock readmeChunk (rewriteBlock mdChunk b)) := by
  have f1a : rewriteBlock mdChunk (rewriteBlock mdChunk b) = rewriteBlock mdChunk b :=
    block_idem_md b
  have f1b := rewriteBlock_pres_of mdChunk readmeChunk
    (none_md_of_repl readmeChunk_repl_ends) mdChunk_ne _ f1a
  have f1c := rewriteBlock_pres_of mdChunk bareChunk
    (none_md_of_repl bareChunk_repl_ends) mdChunk_ne _ f1b
  have f2a : rewriteBlock readmeChunk (rewriteBlock readmeChunk (rewriteBlock mdChunk b)) =
      rewriteBlock readmeChunk (rewriteBlock mdChunk b) :=
    block_idem_rd (rewriteBlock mdChunk b)
  have f2b := rewriteBlock_pres_of readmeChunk bareChunk
    (fun r r2 h t v hv => (none_rdbare_of_bare r r2 h t v hv).1) readmeChunk_ne _ f2a
  have f3a : rewriteBlock bareChunk (rewriteBlock bareChunk
      (rewriteBlock readmeChunk (rewriteBlock mdChunk b))) =
      rewriteBlock bareChunk (rewriteBlock readmeChunk (rewriteBlock mdChunk b)) :=
    block_idem_bare (rewriteBlock readmeChunk (rewriteBlock mdChunk b))
  rw [f1c, f2b, f3a]

theorem mapBlocks_length (f : List Char → Option (List Char)) (bs : List (List Char)) :
    (mapBlocks f bs).length = bs.length := by
  induction bs with
  | nil => rfl
  | cons b bs ih =>
    cases bs with
    | nil => rfl
    | cons b2 bs2 =>
      show (rewriteBlock f b :: mapBlocks f (b2 :: bs2)).length = _
      simp only [List.length_cons]
      rw [ih]
      simp

theorem mapBlocks_ne_nil (f : List Char → Option (List Char)) {bs : List (List Char)}
    (h : bs ≠ []) : mapBlocks f bs ≠ [] := by
  intro h0
  have := congrArg List.length h0
  rw [mapBlocks_length] at this
  exact h (List.eq_nil_of_length_eq_zero (by simpa using this))

theorem mapBlocks_cons_ne (f : List Char → Option (List Char)) (b : List Char)
    {bs : List (List Char)} (h : bs ≠ []) :
    mapBlocks f (b :: bs) = rewriteBlock f b :: mapBlocks f bs := by
  cases bs with
  | nil => exact absurd rfl h
  | cons b2 bs2 => rfl

theorem mapBlocks_composite (bs : List (List Char)) :
    mapBlocks bareChunk (mapBlocks readmeChunk (mapBlocks mdChunk
      (mapBlocks bareChunk (mapBlocks readmeChunk (mapBlocks mdChunk bs))))) =
    mapBlocks bareChunk (mapBlocks readmeChunk (mapBlocks mdChunk bs)) := by
  induction bs with
  | nil => rfl
  | cons b bs ih =>
    cases bs with
    | nil => rfl
    | cons b2 bs2 =>
      have h1 : b2 :: bs2 ≠ [] := by simp
      have h2 := mapBlocks_ne_nil mdChunk h1
      have h3 := mapBlocks_ne_nil readmeChunk h2
      have h4 := mapBlocks_ne_nil bareChunk h3
      have h5 := mapBlocks_ne_nil mdChunk h4
      have h6 := mapBlocks_ne_nil readmeChunk h5
      rw [mapBlocks_cons_ne mdChunk b h1, mapBlocks_cons_ne readmeChunk _ h2,
        mapBlocks_cons_ne bareChunk _ h3, mapBlocks_cons_ne mdChunk _ h4,
        mapBlocks_cons_ne readmeChunk _ h5, mapBlocks_cons_ne bareChunk _ h6]
      rw [block_composite b, ih]

theorem mem_drop_reverse {a : Char} {l : List Char} {n : Nat}
    (h : a ∈ (l.reverse.drop n).reverse) : a ∈ l := by
  rw [List.mem_reverse] at h
  have h2 : a ∈ l.reverse := (List.drop_subset n l.reverse) h
  rwa [List.mem_reverse] at h2

theorem mdChunk_sep : ∀ r r2, mdChunk r = some r2 → ')' ∉ r → ')' ∉ r2 := by
  intro r r2 h hr hmem
  rw [(mdChunk_some_shape h).1] at hmem
  rcases List.mem_append.mp hmem with h1 | h1
  · exact hr (mem_drop_reverse h1)
  · exact absurd h1 (by decide)

theorem readmeChunk_sep : ∀ r r2, readmeChunk r = some r2 → ')' ∉ r → ')' ∉ r2 := by
  intro r r2 h hr hmem
  rw [(readmeChunk_some_shape h).1] at hmem
  rcases List.mem_append.mp hmem with h1 | h1
  · exact hr (mem_drop_reverse h1)
  · exact absurd h1 (by decide)

theorem bareChunk_sep : ∀ r r2, bareChunk r = some r2 → ')' ∉ r → ')' ∉ r2 := by
  intro r r2 h _ hmem
  rw [(bareChunk_some_shape h).2] at hmem
  exact absurd hmem (by decide)

theorem mapBlocks_sep_free (f : List Char → Option (List Char))
    (hf : ∀ r r2, f r = some r2 → ')' ∉ r → ')' ∉ r2)
    (bs : List (List Char)) (hbs : ∀ b ∈ bs, ')' ∉ b) :
    ∀ b ∈ mapBlocks f bs, ')' ∉ b := by
  induction bs with
  | nil => simp [mapBlocks]
  | cons b bs ih =>
    cases bs with
    | nil =>
      intro b2 hb2
      rcases List.mem_cons.mp hb2 with rfl | h0
      · exact hbs b2 (List.mem_cons_self _ _)
      · exact absurd h0 (by simp)
    | cons c cs =>
      rw [mapBlocks_cons_ne f b (by simp)]
      intro b2 hb2
      rcases List.mem_cons.mp hb2 with rfl | h0
      · exact rewriteBlock_not_mem f ')' hf (by decide) (by decide) b
          (hbs b (List.mem_cons_self _ _))
      · exact ih (fun x hx => hbs x (List.mem_cons_of_mem b hx)) b2 h0

/-- One `re.sub` pass applied to a rejoined block list rewrites blockwise. -/
theorem subLink_joinC (f : List Char → Option (List Char))
    (bs : List (List Char)) (hbs : ∀ b ∈ bs, ')' ∉ b) (hne : bs ≠ []) :
    subLink f (joinC ')' bs) = joinC ')' (mapBlocks f bs) := by
  unfold subLink
  rw [splitOnC_joinC ')' bs hbs hne]

/-- C5: the Link Rewriter is idempotent on every input text: applying the
three-pass rewrite twice yields the same output as applying it once. -/
theorem C5_link_rewriter_idempotent (s : List Char) :
    convert_internal_links (convert_internal_links s) = convert_internal_links s := by
  have hB : ∀ b ∈ splitOnC ')' s, ')' ∉ b := mem_splitOnC_not_sep ')' s
  have hBne : splitOnC ')' s ≠ [] := splitOnC_ne_nil ')' s
  have hB1 := mapBlocks_sep_free mdChunk mdChunk_sep _ hB
  have hB1ne := mapBlocks_ne_nil mdChunk hBne
  have hB2 := mapBlocks_sep_free readmeChunk readmeChunk_sep _ hB1
  have hB2ne := mapBlocks_ne_nil readmeChunk hB1ne
  have hB3 := mapBlocks_sep_free bareChunk bareChunk_sep _ hB2
  have hB3ne := mapBlocks_ne_nil bareChunk hB2ne
  have hB4 := mapBlocks_sep_free mdChunk mdChunk_sep _ hB3
  have hB4ne := mapBlocks_ne_nil mdChunk hB3ne
  have hB5 := mapBlocks_sep_free readmeChunk readmeChunk_sep _ hB4
  have hB5ne := mapBlocks_ne_nil readmeChunk hB4ne
  have h1 : subLink mdChunk s = joinC ')' (mapBlocks mdChunk (splitOnC ')' s)) := rfl
  have h2 : subLink readmeChunk (subLink mdChunk s) =
      joinC ')' (mapBlocks readmeChunk (mapBlocks mdChunk (splitOnC ')' s))) := by
    rw [h1, subLink_joinC readmeChunk _ hB1 hB1ne]
  have h3 : convert_internal_links s =
      joinC ')' (mapBlocks bareChunk (mapBlocks readmeChunk
        (mapBlocks mdChunk (splitOnC ')' s)))) := by
    show subLink bareChunk (subLink readmeChunk (subLink mdChunk s)) = _
    rw [h2, subLink_joinC bareChunk _ hB2 hB2ne]
  have h4 : subLink mdChunk (convert_internal_links s) =
      joinC ')' (mapBlocks mdChunk (mapBlocks bareChunk (mapBlocks readmeChunk
        (mapBlocks mdChunk (splitOnC ')' s))))) := by
    rw [h3, subLink_joinC mdChunk _ hB3 hB3ne]
  have h5 : subLink readmeChunk (subLink mdChunk (convert_internal_links s)) =
      joinC ')' (mapBlocks readmeChunk (mapBlocks mdChunk (mapBlocks bareChunk
        (mapBlocks readmeChunk (mapBlocks mdChunk (splitOnC ')' s)))))) := by
    rw [h4, subLink_joinC readmeChunk _ hB4 hB4ne]
  have h6 : convert_internal_links (convert_internal_links s) =
      joinC ')' (mapBlocks bareChunk (mapBlocks readmeChunk (mapBlocks mdChunk
        (mapBlocks bareChunk (mapBlocks readmeChunk
          (mapBlocks mdChunk (splitOnC ')' s))))))) := by
    show subLink bareChunk (subLink readmeChunk (subLink mdChunk
      (convert_internal_links s))) = _
    rw [h5, subLink_joinC bareChunk _ hB5 hB5ne]
  rw [h6, mapBlocks_composite, ← h3]

/-- Step-bounded scanner for Python `str.replace(old, new)`: scan left to
right; where `old` is a prefix, emit `new` and jump past the occurrence
(the emitted replacement is not rescanned); otherwise emit one character.
Each step consumes at least one input character, so `l.length` steps always
suffice; the bound only makes the recursion structural.  (Python's special
treatment of an empty `old` never arises: the script's patterns are the
four nonempty placeholder tokens.) -/
def replaceAllGo (pat repl : List Char) : Nat → List Char → List Char
  | _, [] => []
  | 0, l => l
  | fuel + 1, c :: rest =>
    if pat ≠ [] ∧ pat.isPrefixOf (c :: rest) then
      repl ++ replaceAllGo pat repl fuel ((c :: rest).drop pat.length)
    else
      c :: replaceAllGo pat repl fuel rest

/-- Python `str.replace(old, new)`: every non-overlapping occurrence is
replaced, scanning left to right. -/
def replaceAll (pat repl l : List Char) : List Char :=
  replaceAllGo pat repl l.length l

/-- The template fill of `build_page` (build_docs.py lines 170-173): the four
placeholder substitutions applied in order — title, sidebar, breadcrumb and,
last, the rendered markdown content. -/
def build_page_fill (template title sidebar breadcrumb content : List Char) : List Char :=
  replaceAll (cl "\x7b\x7bcontent\x7d\x7d") content
    (replaceAll (cl "\x7b\x7bbreadcrumb\x7d\x7d") breadcrumb
      (replaceAll (cl "\x7b\x7bsidebar\x7d\x7d") sidebar
        (replaceAll (cl "\x7b\x7btitle\x7d\x7d") title template)))

/-- Substring occurrence test (used to observe generated text). -/
def containsSub (pat : List Char) : List Char → Bool
  | [] => pat.isEmpty
  | c :: rest => pat.isPrefixOf (c :: rest) || containsSub pat rest

theorem containsSub_iff (pat l : List Char) :
    containsSub pat l = true ↔ pat <:+: l := by
  induction l with
  | nil =>
    simp only [containsSub, List.isEmpty_iff]
    constructor
    · intro h
      rw [h]
    · intro h
      exact List.eq_nil_of_infix_nil h
  | cons c rest ih =>
    simp only [containsSub, Bool.or_eq_true, List.isPrefixOf_iff_prefix, ih]
    rw [List.infix_cons_iff]

theorem replaceAllGo_nil (pat repl : List Char) (fuel : Nat) :
    replaceAllGo pat repl fuel [] = [] := by
  cases fuel <;> rfl

theorem replaceAllGo_succ_cons (pat repl : List Char) (fuel : Nat) (c : Char)
    (rest : List Char) :
    replaceAllGo pat repl (fuel + 1) (c :: rest) =
      if pat ≠ [] ∧ pat.isPrefixOf (c :: rest) then
        repl ++ replaceAllGo pat repl fuel ((c :: rest).drop pat.length)
      else
        c :: replaceAllGo pat repl fuel rest := rfl

theorem isPrefixOf_false_of_head {pat : List Char} {p0 : Char}
    (hp : pat.head? = some p0) (c : Char) (l : List Char) (hne : c ≠ p0) :
    pat.isPrefixOf (c :: l) = false := by
  cases pat with
  | nil => exact absurd hp (by simp)
  | cons q qt =>
    simp only [List.head?_cons, Option.some.injEq] at hp
    subst hp
    show ((q == c) && qt.isPrefixOf l) = false
    have : (q == c) = false := beq_eq_false_iff_ne.mpr (fun h => hne h.symm)
    rw [this, Bool.false_and]

theorem replaceAllGo_clean_head {pat : List Char} {p0 : Char} (repl : List Char)
    (hp : pat.head? = some p0) :
    ∀ (a : List Char), p0 ∉ a → ∀ (rest : List Char) (fuel : Nat), a.length ≤ fuel →
      replaceAllGo pat repl fuel (a ++ rest) =
        a ++ replaceAllGo pat repl (fuel - a.length) rest := by
  intro a
  induction a with
  | nil =>
    intro _ rest fuel _
    simp
  | cons ca a2 ih =>
    intro ha rest fuel hlen
    have hca : ca ≠ p0 := fun h => ha (h ▸ List.mem_cons_self _ _)
    have ha2 : p0 ∉ a2 := fun h => ha (List.mem_cons_of_mem _ h)
    cases fuel with
    | zero => simp at hlen
    | succ fu =>
      rw [List.cons_append, replaceAllGo_succ_cons, if_neg]
      · have hlen2 : a2.length ≤ fu := by
          simp only [List.length_cons] at hlen
          omega
        rw [ih ha2 rest fu hlen2]
        simp [Nat.succ_sub_succ]
      · rintro ⟨_, hpre⟩
        rw [isPrefixOf_false_of_head hp ca _ hca] at hpre
        exact absurd hpre (by simp)

theorem replaceAllGo_match (pat repl : List Char) (hpat : pat ≠ []) (rest : List Char)
    (fuel : Nat) :
    replaceAllGo pat repl (fuel + 1) (pat ++ rest) =
      repl ++ replaceAllGo pat repl fuel rest := by
  obtain ⟨p0, pt, rfl⟩ : ∃ p0 pt, pat = p0 :: pt := by
    cases pat with
    | nil => exact absurd rfl hpat
    | cons p0 pt => exact ⟨p0, pt, rfl⟩
  rw [List.cons_append, replaceAllGo_succ_cons, if_pos]
  · congr 1
    rw [← List.cons_append, List.drop_left]
  · refine ⟨hpat, ?_⟩
    rw [← List.cons_append, List.isPrefixOf_iff_prefix]
    exact List.prefix_append _ _

theorem replaceAllGo_id {pat : List Char} {p0 : Char} (repl : List Char)
    (hp : pat.head? = some p0) :
    ∀ (fuel : Nat) (l : List Char), p0 ∉ l → replaceAllGo pat repl fuel l = l := by
  intro fuel
  induction fuel with
  | zero =>
    intro l _
    cases l <;> rfl
  | succ fu ih =>
    intro l hl
    cases l with
    | nil => rfl
    | cons c rest =>
      have hc : c ≠ p0 := fun h => hl (h ▸ List.mem_cons_self _ _)
      have hr : p0 ∉ rest := fun h => hl (List.mem_cons_of_mem _ h)
      rw [replaceAllGo_succ_cons, if_neg]
      · rw [ih rest hr]
      · rintro ⟨_, hpre⟩
        rw [isPrefixOf_false_of_head hp c _ hc] at hpre
        exact absurd hpre (by simp)

theorem replaceAll_id {pat : List Char} {p0 : Char} (repl : List Char)
    (hp : pat.head? = some p0) (l : List Char) (hl : p0 ∉ l) :
    replaceAll pat repl l = l :=
  replaceAllGo_id repl hp l.length l hl

theorem replaceAll_double {pat : List Char} {p0 : Char} (repl a b c : List Char)
    (hp : pat.head? = some p0) (ha : p0 ∉ a) (hb : p0 ∉ b) (hc : p0 ∉ c) :
    replaceAll pat repl (a ++ pat ++ b ++ pat ++ c) =
      a ++ repl ++ b ++ repl ++ c := by
  have hpat : pat ≠ [] := by
    cases pat with
    | nil => exact absurd hp (by simp)
    | cons q qt => simp
  have hplen : 1 ≤ pat.length := by
    cases pat with
    | nil => exact absurd hp (by simp)
    | cons q qt => simp
  unfold replaceAll
  have hassoc : a ++ pat ++ b ++ pat ++ c = a ++ (pat ++ (b ++ (pat ++ c))) := by
    simp [List.append_assoc]
  rw [hassoc]
  set n := (a ++ (pat ++ (b ++ (pat ++ c)))).length with hn
  have hnval : n = a.length + (pat.length + (b.length + (pat.length + c.length))) := by
    rw [hn]
    simp [List.length_append]
  rw [replaceAllGo_clean_head repl hp a ha _ n (by omega)]
  obtain ⟨k1, hk1⟩ : ∃ k1, n - a.length = k1 + 1 := ⟨n - a.length - 1, by omega⟩
  rw [hk1, replaceAllGo_match pat repl hpat _ k1]
  rw [replaceAllGo_clean_head repl hp b hb _ k1 (by omega)]
  obtain ⟨k2, hk2⟩ : ∃ k2, k1 - b.length = k2 + 1 := ⟨k1 - b.length - 1, by omega⟩
  rw [hk2, replaceAllGo_match pat repl hpat _ k2]
  rw [replaceAllGo_id repl hp k2 c hc]
  simp [List.append_assoc]

theorem replaceAllGo_contains {pat repl : List Char} (hpat : pat ≠ []) :
    ∀ (fuel : Nat) (s : List Char), s.length ≤ fuel → pat <:+: s →
      ∃ x y, replaceAllGo pat repl fuel s = x ++ repl ++ y := by
  intro fuel
  induction fuel with
  | zero =>
    intro s hs hinf
    have hse : s = [] := List.eq_nil_of_length_eq_zero (Nat.le_zero.mp hs)
    subst hse
    exact absurd (List.eq_nil_of_infix_nil hinf) hpat
  | succ fu ih =>
    intro s hs hinf
    cases s with
    | nil => exact absurd (List.eq_nil_of_infix_nil hinf) hpat
    | cons ch rest =>
      rw [replaceAllGo_succ_cons]
      by_cases hcond : pat ≠ [] ∧ pat.isPrefixOf (ch :: rest)
      · rw [if_pos hcond]
        exact ⟨[], replaceAllGo pat repl fu ((ch :: rest).drop pat.length), by simp⟩
      · rw [if_neg hcond]
        have hrest : pat <:+: rest := by
          rcases List.infix_cons_iff.mp hinf with hpre | h
          · exact absurd ⟨hpat, List.isPrefixOf_iff_prefix.mpr hpre⟩ hcond
          · exact h
        have hlen2 : rest.length ≤ fu := by
          simp only [List.length_cons] at hs
          omega
        obtain ⟨x, y, hxy⟩ := ih rest hlen2 hrest
        exact ⟨ch :: x, y, by rw [hxy]; rfl⟩

theorem replaceAll_contains (pat repl s : List Char) (hpat : pat ≠ [])
    (hs : pat <:+: s) : ∃ x y, replaceAll pat repl s = x ++ repl ++ y :=
  replaceAllGo_contains hpat s.length s le_rfl hs

/-- C2 (amended): `str.replace` substitutes EVERY occurrence of a
placeholder token, not only the first: a template containing `\x7b\x7btitle\x7d\x7d`
twice (with no other brace anywhere) assembles with the title substituted at
both occurrences. -/
theorem C2_template_fill (a b c title sidebar breadcrumb content : List Char)
    (ha : '\x7b' ∉ a) (hb : '\x7b' ∉ b) (hc : '\x7b' ∉ c) (ht : '\x7b' ∉ title) :
    build_page_fill
      (a ++ cl "\x7b\x7btitle\x7d\x7d" ++ b ++ cl "\x7b\x7btitle\x7d\x7d" ++ c)
      title sidebar breadcrumb content = a ++ title ++ b ++ title ++ c := by
  unfold build_page_fill
  rw [replaceAll_double title a b c (by decide) ha hb hc]
  have hnb : '\x7b' ∉ a ++ title ++ b ++ title ++ c := by
    intro h
    simp only [List.mem_append] at h
    rcases h with (((h | h) | h) | h) | h
    · exact ha h
    · exact ht h
    · exact hb h
    · exact ht h
    · exact hc h
  rw [@replaceAll_id (cl "\x7b\x7bsidebar\x7d\x7d") '\x7b' sidebar (by decide) _ hnb]
  rw [@replaceAll_id (cl "\x7b\x7bbreadcrumb\x7d\x7d") '\x7b' breadcrumb (by decide) _ hnb]
  rw [@replaceAll_id (cl "\x7b\x7bcontent\x7d\x7d") '\x7b' content (by decide) _ hnb]

/-- C2 counterexample: on a template in which the title token occurs twice,
page assembly replaces BOTH occurrences (Python `str.replace` replaces all
occurrences), not only the first as the claim states: the result is `TXT`,
not `TX\x7b\x7btitle\x7d\x7d`. -/
theorem C2_counterexample :
    build_page_fill (cl "\x7b\x7btitle\x7d\x7dX\x7b\x7btitle\x7d\x7d")
      (cl "T") (cl "S") (cl "B") (cl "C") = cl "TXT" ∧
    cl "TXT" ≠ cl "TX\x7b\x7btitle\x7d\x7d" := by
  decide

/-- C2 witness: the amended theorem applied at a concrete template. -/
theorem C2_template_fill_witness :
    build_page_fill
      (cl "<h1>" ++ cl "\x7b\x7btitle\x7d\x7d" ++ cl "|" ++ cl "\x7b\x7btitle\x7d\x7d" ++ cl "</h1>")
      (cl "T") (cl "S") (cl "B") (cl "C") =
      cl "<h1>" ++ cl "T" ++ cl "|" ++ cl "T" ++ cl "</h1>" :=
  C2_template_fill (cl "<h1>") (cl "|") (cl "</h1>") (cl "T") (cl "S") (cl "B") (cl "C")
    (by decide) (by decide) (by decide) (by decide)

/-- C8 (amended): a placeholder token contained in the rendered markdown
content is NOT substituted away: the content is substituted last and
`str.replace` never rescans its replacement, so whenever the content token
is still present after the first three substitutions, any token inside the
content text survives verbatim into the assembled page. -/
theorem C8_content_token_survives
    (template title sidebar breadcrumb content tok : List Char)
    (htok : tok <:+: content)
    (hc : cl "\x7b\x7bcontent\x7d\x7d" <:+:
      replaceAll (cl "\x7b\x7bbreadcrumb\x7d\x7d") breadcrumb
        (replaceAll (cl "\x7b\x7bsidebar\x7d\x7d") sidebar
          (replaceAll (cl "\x7b\x7btitle\x7d\x7d") title template))) :
    tok <:+: build_page_fill template title sidebar breadcrumb content := by
  obtain ⟨x, y, hxy⟩ := replaceAll_contains _ content _ (by decide) hc
  unfold build_page_fill
  rw [hxy]
  obtain ⟨u, v, huv⟩ := htok
  exact ⟨x ++ u, v ++ y, by rw [← huv]; simp⟩

/-- C8 counterexample: a document whose rendered content contains the
literal title token verbatim: the assembled page still contains that token,
because the content is substituted last and replacements are not rescanned
— the claim that such a token "is itself substituted" is false. -/
theorem C8_counterexample :
    containsSub (cl "\x7b\x7btitle\x7d\x7d") (cl "\x7b\x7btitle\x7d\x7dx") = true ∧
    build_page_fill (cl "\x7b\x7bcontent\x7d\x7d") (cl "T") (cl "S") (cl "B")
      (cl "\x7b\x7btitle\x7d\x7dx") = cl "\x7b\x7btitle\x7d\x7dx" ∧
    containsSub (cl "\x7b\x7btitle\x7d\x7d")
      (build_page_fill (cl "\x7b\x7bcontent\x7d\x7d") (cl "T") (cl "S") (cl "B")
        (cl "\x7b\x7btitle\x7d\x7dx")) = true := by
  decide

/-- C8 witness: the amended theorem applied at a concrete page. -/
theorem C8_content_token_survives_witness :
    cl "\x7b\x7bsidebar\x7d\x7d" <:+:
      build_page_fill (cl "A\x7b\x7bcontent\x7d\x7dB") (cl "T") (cl "S") (cl "B")
        (cl "x\x7b\x7bsidebar\x7d\x7dy") := by
  apply C8_content_token_survives
  · exact ⟨cl "x", cl "y", by decide⟩
  · exact ⟨cl "A", cl "B", by decide⟩

/-- A navigation entry of `NAV_STRUCTURE`: display title, destination URL,
and the optional section directory ("order matters" — the list order is the
sidebar order). -/
structure NavEntry where
  title : List Char
  url : List Char
  sectionDir : Option (List Char)
deriving DecidableEq, Repr

/-- `NAV_STRUCTURE` (build_docs.py lines 23-35). -/
def NAV_STRUCTURE : List NavEntry := [
  ⟨cl "Home", cl "index.html", none⟩,
  ⟨cl "Quickstart", cl "quickstart.html", none⟩,
  ⟨cl "Quick Reference", cl "quick-reference.html", none⟩,
  ⟨cl "Getting Started", cl "getting-started/index.html", some (cl "getting-started")⟩,
  ⟨cl "Core Guides", cl "core-guides/index.html", some (cl "core-guides")⟩,
  ⟨cl "Intermediate", cl "intermediate/index.html", some (cl "intermediate")⟩,
  ⟨cl "Advanced", cl "advanced/index.html", some (cl "advanced")⟩,
  ⟨cl "Key Concepts", cl "key-concepts/index.html", some (cl "key-concepts")⟩,
  ⟨cl "Background", cl "background/index.html", some (cl "background")⟩,
  ⟨cl "Reference", cl "reference/index.html", some (cl "reference")⟩,
  ⟨cl "Troubleshooting", cl "troubleshooting/index.html", some (cl "troubleshooting")⟩]

/-- The file system as the script observes it: directory existence, the
unsorted `*.md` filenames that `glob` yields for a section directory,
file existence, and file contents. -/
structure FS where
  dirExists : List Char → Bool
  mdNames : List Char → List (List Char)
  fileExists : RelPath → Bool
  read : RelPath → List Char

/-- Python string `<` / `sorted()` comparison: lexicographic by code point. -/
def lexLe : List Char → List Char → Bool
  | [], _ => true
  | _ :: _, [] => false
  | a :: as, b :: bs => if a = b then lexLe as bs else decide (a < b)

/-- Insert into a `lexLe`-sorted list, keeping it sorted. -/
def insertLe (x : List Char) : List (List Char) → List (List Char)
  | [] => [x]
  | y :: ys => if lexLe x y then x :: y :: ys else y :: insertLe x ys

/-- Sorting by `lexLe`.  `lexLe` is a linear order, so the `lexLe`-sorted
permutation of a list is unique and any comparison sort — Python's
`sorted()` included — returns exactly this list. -/
def sortLe : List (List Char) → List (List Char)
  | [] => []
  | x :: xs => insertLe x (sortLe xs)

/-- `get_files_in_section` (build_docs.py lines 50-64): for a missing
directory the empty list; otherwise `README.md` first when it exists,
then the section's markdown files sorted by name, `README.md` excluded.
(`sorted()` on same-directory paths compares filenames; on a real file
system `README.md` exists exactly when the `*.md` glob lists it.) -/
def get_files_in_section (fs : FS) (d : List Char) : List (List Char) :=
  if fs.dirExists d then
    (if fs.fileExists ⟨[d], cl "README.md"⟩ then [cl "README.md"] else []) ++
    (sortLe (fs.mdNames d)).filter (fun f => f ≠ cl "README.md")
  else []

/-- The literal active-class attribute inserted for the current page. -/
def activeTok : List Char := cl " class=\"active\""

/-- Child link line of `build_sidebar` (line 101). -/
def childLine (cur url title : List Char) : List Char :=
  cl "<li><a href=\"" ++ url ++ cl "\"" ++ (if cur = url then activeTok else []) ++
    cl ">" ++ title ++ cl "</a></li>"

/-- Section heading line of `build_sidebar` (line 87) — note: no active
class is ever attached here, `is_active` is unused in this branch. -/
def sectionHeadLine (url title : List Char) : List Char :=
  cl "<li><span class=\"section-title\"><a href=\"" ++ url ++ cl "\">" ++ title ++
    cl "</a></span>"

/-- Top-level (sectionless) entry line of `build_sidebar` (line 108). -/
def topLine (cur url title : List Char) : List Char :=
  cl "<li><span class=\"section-title\"><a href=\"" ++ url ++ cl "\"" ++
    (if cur = url then activeTok else []) ++ cl ">" ++ title ++ cl "</a></span></li>"

/-- The html lines a single navigation entry contributes to the sidebar
(build_docs.py lines 79-108): a section entry emits its heading line, a
nested list of child links when the child list is nonempty (skipping the
README child inside the loop), and a closing tag; a sectionless entry
emits one line. -/
def entryLines (fs : FS) (cur : List Char) (e : NavEntry) : List (List Char) :=
  match e.sectionDir with
  | some d =>
    let children := get_files_in_section fs d
    [sectionHeadLine e.url e.title] ++
    (if children.isEmpty then [] else
      [cl "<ul>"] ++
      children.filterMap (fun f =>
        if f = cl "README.md" then none
        else some (childLine cur (md_to_html_path ⟨[d], f⟩)
          (get_title_from_markdown (fs.read ⟨[d], f⟩) ⟨[d], f⟩))) ++
      [cl "</ul>"]) ++
    [cl "</li>"]
  | none => [topLine cur e.url e.title]

/-- The html line list of `build_sidebar` (lines 75-111), before the final
newline join. -/
def sidebarLines (fs : FS) (cur : List Char) : List (List Char) :=
  [cl "<ul>"] ++ (NAV_STRUCTURE.map (entryLines fs cur)).flatten ++ [cl "</ul>"]

/-- `build_sidebar` (build_docs.py lines 75-111): the joined html. -/
def build_sidebar (fs : FS) (cur : List Char) : List Char :=
  joinC '\n' (sidebarLines fs cur)

/-- `build_breadcrumb` (build_docs.py lines 114-133): empty for top-level
files; a single unlinked crumb (the title-cased section directory name)
for a section README; otherwise a crumb linking `index.html` plus the
page's own extracted title, re-read from disk. -/
def build_breadcrumb (fs : FS) (p : RelPath) : List Char :=
  match p.dirs with
  | [] => []
  | sect :: _ =>
    let sectionTitle := pyTitle (replDU sect)
    if p.filename = cl "README.md" then
      cl "<li>" ++ sectionTitle ++ cl "</li>"
    else
      cl "<li><a href=\"index.html\">" ++ sectionTitle ++ cl "</a></li><li>" ++
        get_title_from_markdown (fs.read p) p ++ cl "</li>"

/-- Browser resolution of a relative href with no directory components
against the directory of the page it appears on. -/
def resolveHref (pageDirs : List (List Char)) (href : List Char) : List Char :=
  renderPath ⟨pageDirs, href⟩

/-- Drop everything up to and including the first occurrence of `pat`. -/
def dropToMatch (pat : List Char) : List Char → Option (List Char)
  | [] => if pat.isEmpty then some [] else none
  | c :: r =>
    if pat.isPrefixOf (c :: r) then some ((c :: r).drop pat.length)
    else dropToMatch pat r

/-- Observe the (first) href attribute of a rendered html line. -/
def extractHref (line : List Char) : Option (List Char) :=
  (dropToMatch (cl "href=\"") line).map (fun rest => rest.takeWhile (fun c => c ≠ '"'))

/-- All hrefs of a line list, in order. -/
def hrefsOf (ls : List (List Char)) : List (List Char) := ls.filterMap extractHref

/-- The destination URLs a navigation entry is expected to contribute, in
order: its own URL, then (for a section) the URLs of its non-README files
in sorted order. -/
def expectedEntryHrefs (fs : FS) (e : NavEntry) : List (List Char) :=
  match e.sectionDir with
  | none => [e.url]
  | some d => e.url ::
      ((get_files_in_section fs d).filter (fun f => f ≠ cl "README.md")).map
        (fun f => md_to_html_path ⟨[d], f⟩)

theorem childLine_active_contains (url title : List Char) :
    containsSub activeTok (childLine url url title) = true := by
  apply (containsSub_iff _ _).mpr
  refine ⟨cl "<li><a href=\"" ++ url ++ cl "\"",
    cl ">" ++ title ++ cl "</a></li>", ?_⟩
  unfold childLine
  rw [if_pos rfl]
  simp [List.append_assoc]

theorem childLine_inactive_decomp (cur url title : List Char) (h : cur ≠ url) :
    childLine cur url title =
      cl "<li><a href=" ++ '"' :: (url ++ '"' :: (cl ">" ++ title ++ cl "</a></li>")) := by
  unfold childLine
  rw [if_neg h]
  have h1 : cl "<li><a href=\"" = cl "<li><a href=" ++ ['"'] := by decide
  have h2 : cl "\"" = ['"'] := by decide
  rw [h1, h2]
  simp [List.append_assoc]

theorem childLine_active_iff (cur url title : List Char)
    (hu : '"' ∉ url) (ht : '"' ∉ title) :
    containsSub activeTok (childLine cur url title) = true ↔ cur = url := by
  constructor
  · intro hc
    by_contra hne
    rw [childLine_inactive_decomp cur url title hne] at hc
    obtain ⟨s, t, hst⟩ := (containsSub_iff _ _).mp hc
    have hcu : url.count '"' = 0 := List.count_eq_zero.mpr hu
    have hct : title.count '"' = 0 := List.count_eq_zero.mpr ht
    have e1 : (cl "<li><a href=").count '"' = 0 := by decide
    have e2 : (cl ">" ++ title ++ cl "</a></li>").count '"' = 0 := by
      have a1 : (cl ">").count '"' = 0 := by decide
      have a2 : (cl "</a></li>").count '"' = 0 := by decide
      rw [List.count_append, List.count_append, a1, a2, hct]
    have hcountL : (cl "<li><a href=" ++
        '"' :: (url ++ '"' :: (cl ">" ++ title ++ cl "</a></li>"))).count '"' = 2 := by
      rw [List.count_append, List.count_cons_self, List.count_append,
        List.count_cons_self, e1, e2, hcu]
    rw [← hst] at hcountL
    have e4 : activeTok.count '"' = 2 := by decide
    rw [List.count_append, List.count_append, e4] at hcountL
    have hs : '"' ∉ s := List.count_eq_zero.mp (by omega)
    have htq : '"' ∉ t := List.count_eq_zero.mp (by omega)
    have hsplit1 : splitOnC '"' (cl "<li><a href=" ++
        '"' :: (url ++ '"' :: (cl ">" ++ title ++ cl "</a></li>"))) =
        [cl "<li><a href=", url, cl ">" ++ title ++ cl "</a></li>"] := by
      rw [splitOnC_append_sep _ _ _ (by decide), splitOnC_append_sep _ _ _ hu,
        splitOnC_sepfree]
      intro hmem
      simp only [List.mem_append] at hmem
      rcases hmem with (hmem | hmem) | hmem
      · exact absurd hmem (by decide)
      · exact ht hmem
      · exact absurd hmem (by decide)
    have hre : s ++ activeTok ++ t =
        (s ++ cl " class=") ++ '"' :: (cl "active" ++ '"' :: t) := by
      have ha : activeTok = cl " class=" ++ '"' :: (cl "active" ++ ['"']) := by decide
      rw [ha]
      simp [List.append_assoc]
    have hsplit2 : splitOnC '"' (s ++ activeTok ++ t) =
        [s ++ cl " class=", cl "active", t] := by
      rw [hre, splitOnC_append_sep _ _ _ (by
          intro hmem
          simp only [List.mem_append] at hmem
          rcases hmem with hmem | hmem
          · exact hs hmem
          · exact absurd hmem (by decide)),
        splitOnC_append_sep _ _ _ (by decide), splitOnC_sepfree _ _ htq]
    rw [hst, hsplit1] at hsplit2
    have hA : cl "<li><a href=" = s ++ cl " class=" :=
      (List.cons.injEq _ _ _ _ ▸ hsplit2).1
    have hA2 : cl "<li><" ++ cl "a href=" = s ++ cl " class=" := by
      rw [← hA]
      decide
    have := (List.append_inj' hA2.symm (by decide)).2
    exact absurd this (by decide)
  · intro h
    subst h
    exact childLine_active_contains cur title

/-- C9: a configured section whose directory is absent yields the empty
child list and the section entry is still rendered — its heading line plus
the closing tag, with no nested list. -/
theorem C9_missing_section (fs : FS) (cur title url d : List Char)
    (h : fs.dirExists d = false) :
    get_files_in_section fs d = [] ∧
    entryLines fs cur ⟨title, url, some d⟩ = [sectionHeadLine url title, cl "</li>"] := by
  have h1 : get_files_in_section fs d = [] := by
    unfold get_files_in_section
    simp [h]
  refine ⟨h1, ?_⟩
  unfold entryLines
  simp [h1]

/-- A concrete file system with a single `getting-started` section holding
`README.md` and `install.md` (used by the witnesses). -/
def sampleFS : FS where
  dirExists := fun d => decide (d = cl "getting-started")
  mdNames := fun d => if d = cl "getting-started" then [cl "install.md", cl "README.md"] else []
  fileExists := fun p => decide (p.dirs = [cl "getting-started"]) &&
    (decide (p.filename = cl "install.md") || decide (p.filename = cl "README.md"))
  read := fun p =>
    if p.filename = cl "install.md" then cl "# Install"
    else if p.filename = cl "README.md" then cl "# Getting Started" else []

/-- C9 witness: the theorem applied to a file system with no directories. -/
theorem C9_missing_section_witness :
    get_files_in_section sampleFS (cl "background") = [] ∧
    entryLines sampleFS (cl "index.html")
      ⟨cl "Background", cl "background/index.html", some (cl "background")⟩ =
      [sectionHeadLine (cl "background/index.html") (cl "Background"), cl "</li>"] :=
  C9_missing_section sampleFS (cl "index.html") (cl "Background")
    (cl "background/index.html") (cl "background") (by decide)

theorem topLine_active_iff (cur url title : List Char)
    (hconc : containsSub activeTok (cl "<li><span class=\"section-title\"><a href=\"" ++
      url ++ cl "\"" ++ [] ++ cl ">" ++ title ++ cl "</a></span></li>") = false)
    (hact : containsSub activeTok (topLine url url title) = true) :
    containsSub activeTok (topLine cur url title) = true ↔ cur = url := by
  constructor
  · intro hcs
    by_contra h
    unfold topLine at hcs
    rw [if_neg h] at hcs
    rw [hconc] at hcs
    exact Bool.false_ne_true hcs
  · intro hcur
    rw [hcur]
    exact hact

/-- C10: section-title links never carry the active class — the line a
section entry contributes is independent of the current page and contains
no active attribute even when the current URL equals the entry URL; a
sectionless top-level link and a child link carry the active class exactly
when their URL equals the current page's URL. -/
theorem C10_active_marking :
    (∀ e ∈ NAV_STRUCTURE, ∀ d, e.sectionDir = some d → ∀ fs cur,
      (entryLines fs cur e).head? = some (sectionHeadLine e.url e.title) ∧
      containsSub activeTok (sectionHeadLine e.url e.title) = false) ∧
    (∀ e ∈ NAV_STRUCTURE, e.sectionDir = none → ∀ cur,
      (containsSub activeTok (topLine cur e.url e.title) = true ↔ cur = e.url)) ∧
    (∀ cur url title, '"' ∉ url → '"' ∉ title →
      (containsSub activeTok (childLine cur url title) = true ↔ cur = url)) := by
  refine ⟨?_, ?_, childLine_active_iff⟩
  · intro e he d hd fs cur
    refine ⟨?_, ?_⟩
    · unfold entryLines
      rw [hd]
      rfl
    · fin_cases he <;> try simp at hd
      all_goals decide
  · intro e he hnone cur
    fin_cases he <;> try simp at hnone
    all_goals exact topLine_active_iff _ _ _ (by decide) (by decide)

/-- C10 witness: the child-link clause applied at concrete URLs — the link
of the current page carries the active class, another page's link does not. -/
theorem C10_active_marking_witness :
    containsSub activeTok (childLine (cl "a.html") (cl "a.html") (cl "T")) = true ∧
    containsSub activeTok (childLine (cl "b.html") (cl "a.html") (cl "T")) = false := by
  have h := C10_active_marking.2.2
  constructor
  · exact (h (cl "a.html") (cl "a.html") (cl "T") (by decide) (by decide)).mpr rfl
  · have h2 := h (cl "b.html") (cl "a.html") (cl "T") (by decide) (by decide)
    have h3 : ¬(containsSub activeTok (childLine (cl "b.html") (cl "a.html") (cl "T")) = true) :=
      fun hc => absurd (h2.mp hc) (by decide)
    exact (Bool.not_eq_true _) ▸ h3

/-- C6: breadcrumbs. For every configured section (directory `d`): a
top-level page gets the empty breadcrumb; the section's README gets a
single crumb holding exactly the configured section title and containing no
anchor; any other page in the section gets a crumb whose link (href
`index.html`) resolves, relative to the page's directory, to precisely the
destination of the section's README — the section index page — labelled
with the configured section title, followed by the page's own extracted
title. -/
theorem C6_breadcrumb (fs : FS) (e : NavEntry) (d : List Char)
    (he : e ∈ NAV_STRUCTURE) (hd : e.sectionDir = some d)
    (name : List Char) (hn : name ≠ cl "README.md") :
    (∀ f, build_breadcrumb fs ⟨[], f⟩ = []) ∧
    (build_breadcrumb fs ⟨[d], cl "README.md"⟩ = cl "<li>" ++ e.title ++ cl "</li>" ∧
      containsSub (cl "<a ") (cl "<li>" ++ e.title ++ cl "</li>") = false) ∧
    (build_breadcrumb fs ⟨[d], name⟩ =
      cl "<li><a href=\"index.html\">" ++ e.title ++ cl "</a></li><li>" ++
        get_title_from_markdown (fs.read ⟨[d], name⟩) ⟨[d], name⟩ ++ cl "</li>" ∧
      resolveHref [d] (cl "index.html") = md_to_html_path ⟨[d], cl "README.md"⟩) := by
  have hsec : pyTitle (replDU d) = e.title ∧
      containsSub (cl "<a ") (cl "<li>" ++ e.title ++ cl "</li>") = false := by
    fin_cases he <;> try simp at hd
    all_goals (subst hd; exact ⟨by decide, by decide⟩)
  refine ⟨fun f => rfl, ⟨?_, hsec.2⟩, ⟨?_, ?_⟩⟩
  · show cl "<li>" ++ pyTitle (replDU d) ++ cl "</li>" = _
    rw [hsec.1]
  · show (if name = cl "README.md" then
        cl "<li>" ++ pyTitle (replDU d) ++ cl "</li>"
      else cl "<li><a href=\"index.html\">" ++ pyTitle (replDU d) ++ cl "</a></li><li>" ++
        get_title_from_markdown (fs.read ⟨[d], name⟩) ⟨[d], name⟩ ++ cl "</li>") = _
    rw [if_neg hn, hsec.1]
  · unfold resolveHref md_to_html_path
    rw [if_pos rfl]

/-- C6 witness: the end-to-end example — the breadcrumb on
`getting-started/install.html` renders a link that resolves to
`getting-started/index.html`, labelled `Getting Started`, followed by
`Install`. -/
theorem C6_breadcrumb_witness :
    build_breadcrumb sampleFS ⟨[cl "getting-started"], cl "install.md"⟩ =
      cl "<li><a href=\"index.html\">Getting Started</a></li><li>Install</li>" ∧
    resolveHref [cl "getting-started"] (cl "index.html") =
      cl "getting-started/index.html" := by
  have h := (C6_breadcrumb sampleFS
    ⟨cl "Getting Started", cl "getting-started/index.html", some (cl "getting-started")⟩
    (cl "getting-started") (by decide) rfl (cl "install.md") (by decide)).2.2
  exact ⟨h.1.trans (by decide), h.2.trans (by decide)⟩

theorem lexLe_cons (p : Char) (ps : List Char) (q : Char) (qs : List Char) :
    lexLe (p :: ps) (q :: qs) = if p = q then lexLe ps qs else decide (p < q) := rfl

theorem lexLe_total : ∀ a b : List Char, lexLe a b = true ∨ lexLe b a = true := by
  intro a
  induction a with
  | nil => intro b; exact Or.inl rfl
  | cons x xs ih =>
    intro b
    cases b with
    | nil => exact Or.inr rfl
    | cons y ys =>
      by_cases hxy : x = y
      · subst hxy
        rcases ih ys with h | h
        · left
          rw [lexLe_cons, if_pos rfl]
          exact h
        · right
          rw [lexLe_cons, if_pos rfl]
          exact h
      · rcases lt_or_gt_of_ne hxy with hlt | hgt
        · left
          rw [lexLe_cons, if_neg hxy]
          exact decide_eq_true hlt
        · right
          rw [lexLe_cons, if_neg (Ne.symm hxy)]
          exact decide_eq_true hgt

theorem lexLe_trans : ∀ a b c : List Char,
    lexLe a b = true → lexLe b c = true → lexLe a c = true := by
  intro a
  induction a with
  | nil => intro b c _ _; rfl
  | cons x xs ih =>
    intro b c h1 h2
    cases b with
    | nil =>
      rw [show lexLe (x :: xs) [] = false from rfl] at h1
      exact absurd h1 (by decide)
    | cons y ys =>
      cases c with
      | nil =>
        rw [show lexLe (y :: ys) [] = false from rfl] at h2
        exact absurd h2 (by decide)
      | cons z zs =>
        rw [lexLe_cons] at h1 h2 ⊢
        by_cases hxy : x = y
        · subst hxy
          rw [if_pos rfl] at h1
          by_cases hyz : x = z
          · subst hyz
            rw [if_pos rfl] at h2 ⊢
            exact ih ys zs h1 h2
          · rw [if_neg hyz] at h2 ⊢
            exact h2
        · rw [if_neg hxy] at h1
          have hlt1 : x < y := of_decide_eq_true h1
          by_cases hyz : y = z
          · subst hyz
            rw [if_neg hxy]
            exact h1
          · rw [if_neg hyz] at h2
            have hlt2 : y < z := of_decide_eq_true h2
            have hlt : x < z := lt_trans hlt1 hlt2
            rw [if_neg (ne_of_lt hlt)]
            exact decide_eq_true hlt

theorem mem_insertLe (x a : List Char) : ∀ l, a ∈ insertLe x l ↔ a = x ∨ a ∈ l := by
  intro l
  induction l with
  | nil => simp [insertLe]
  | cons y ys ih =>
    unfold insertLe
    by_cases h : lexLe x y = true
    · rw [if_pos h]
      simp only [List.mem_cons]
    · rw [if_neg h]
      simp only [List.mem_cons, ih]
      tauto

theorem mem_sortLe (a : List Char) : ∀ l, a ∈ sortLe l ↔ a ∈ l := by
  intro l
  induction l with
  | nil => exact Iff.rfl
  | cons x xs ih =>
    show a ∈ insertLe x (sortLe xs) ↔ a ∈ x :: xs
    rw [mem_insertLe]
    simp only [List.mem_cons, ih]

theorem pairwise_insertLe (x : List Char) :
    ∀ l, List.Pairwise (fun a b => lexLe a b = true) l →
      List.Pairwise (fun a b => lexLe a b = true) (insertLe x l) := by
  intro l
  induction l with
  | nil => intro _; simp [insertLe]
  | cons y ys ih =>
    intro h
    rw [List.pairwise_cons] at h
    obtain ⟨hy, hys⟩ := h
    unfold insertLe
    by_cases hxy : lexLe x y = true
    · rw [if_pos hxy, List.pairwise_cons]
      refine ⟨?_, List.pairwise_cons.mpr ⟨hy, hys⟩⟩
      intro b hb
      rcases List.mem_cons.mp hb with hb | hb
      · subst hb; exact hxy
      · exact lexLe_trans x y b hxy (hy b hb)
    · rw [if_neg hxy, List.pairwise_cons]
      refine ⟨?_, ih hys⟩
      intro b hb
      rcases (mem_insertLe x b ys).mp hb with hb | hb
      · rw [hb]
        rcases lexLe_total x y with h | h
        · exact absurd h hxy
        · exact h
      · exact hy b hb

theorem pairwise_sortLe : ∀ l, List.Pairwise (fun a b => lexLe a b = true) (sortLe l) := by
  intro l
  induction l with
  | nil => exact List.Pairwise.nil
  | cons x xs ih => exact pairwise_insertLe x (sortLe xs) ih

/-- The non-README children of any section are sorted lexicographically. -/
theorem pairwise_get_files (fs : FS) (d : List Char) :
    List.Pairwise (fun a b => lexLe a b = true)
      ((get_files_in_section fs d).filter fun f => f ≠ cl "README.md") := by
  unfold get_files_in_section
  by_cases hd : fs.dirExists d = true
  · rw [if_pos hd, List.filter_append]
    have h1 : (if fs.fileExists ⟨[d], cl "README.md"⟩ then [cl "README.md"] else []).filter
        (fun f => f ≠ cl "README.md") = [] := by
      by_cases hr : fs.fileExists ⟨[d], cl "README.md"⟩ = true
      · rw [if_pos hr]; decide
      · rw [if_neg hr]; rfl
    rw [h1, List.nil_append]
    exact (pairwise_sortLe (fs.mdNames d)).sublist
      ((List.filter_sublist _).trans (List.filter_sublist _))
  · rw [if_neg hd]
    exact List.Pairwise.nil

/-- Any non-README member of a section's file list was listed by the glob. -/
theorem mem_get_files (fs : FS) (d f : List Char)
    (hf : f ∈ (get_files_in_section fs d).filter fun f => f ≠ cl "README.md") :
    f ∈ fs.mdNames d := by
  have hne : f ≠ cl "README.md" := by
    have := List.of_mem_filter hf
    simpa using this
  have hmem : f ∈ get_files_in_section fs d := List.mem_of_mem_filter hf
  unfold get_files_in_section at hmem
  by_cases hd : fs.dirExists d = true
  · rw [if_pos hd] at hmem
    rcases List.mem_append.mp hmem with h | h
    · by_cases hr : fs.fileExists ⟨[d], cl "README.md"⟩ = true
      · rw [if_pos hr] at h
        simp only [List.mem_singleton] at h
        exact absurd h hne
      · rw [if_neg hr] at h
        exact absurd h (by simp)
    · exact (mem_sortLe f (fs.mdNames d)).mp (List.mem_of_mem_filter h)
  · rw [if_neg hd] at hmem
    exact absurd hmem (by simp)

theorem dropToMatch_cons (pat : List Char) (c : Char) (r : List Char) :
    dropToMatch pat (c :: r) =
      if pat.isPrefixOf (c :: r) then some ((c :: r).drop pat.length)
      else dropToMatch pat r := rfl

/-- Scanning for a pattern that starts with `p0` skips any `p0`-free chunk. -/
theorem dropToMatch_skip {pat : List Char} {p0 : Char} (hp : pat.head? = some p0) :
    ∀ (p l : List Char), p0 ∉ p → dropToMatch pat (p ++ l) = dropToMatch pat l := by
  intro p
  induction p with
  | nil => intro l _; rfl
  | cons c cs ih =>
    intro l hpmem
    have hc : c ≠ p0 := fun h => hpmem (h ▸ List.mem_cons_self _ _)
    rw [List.cons_append, dropToMatch_cons, isPrefixOf_false_of_head hp c _ hc]
    rw [if_neg (by simp)]
    exact ih l (fun h => hpmem (List.mem_cons_of_mem _ h))

/-- Scanning finds the pattern sitting at the front. -/
theorem dropToMatch_self {pat : List Char} (hpat : pat ≠ []) (l : List Char) :
    dropToMatch pat (pat ++ l) = some l := by
  cases pat with
  | nil => exact absurd rfl hpat
  | cons p0 pt =>
    have hpre : (p0 :: pt).isPrefixOf ((p0 :: pt) ++ l) = true := by
      rw [List.isPrefixOf_iff_prefix]
      exact List.prefix_append _ _
    rw [List.cons_append, dropToMatch_cons, ← List.cons_append, hpre, if_pos rfl,
      List.drop_left]

theorem takeWhile_stop (p : Char → Bool) : ∀ (u rest : List Char) (c : Char),
    (∀ x ∈ u, p x = true) → p c = false → (u ++ c :: rest).takeWhile p = u := by
  intro u
  induction u with
  | nil =>
    intro rest c _ hc
    rw [List.nil_append, List.takeWhile_cons, hc]
    rw [if_neg (by simp)]
  | cons x xs ih =>
    intro rest c hall hc
    rw [List.cons_append, List.takeWhile_cons, hall x (List.mem_cons_self _ _), if_pos rfl]
    rw [ih rest c (fun y hy => hall y (List.mem_cons_of_mem _ hy)) hc]

/-- The first href attribute of a line made of an `h`-free lead, the
attribute itself, and an arbitrary tail is the attribute's value. -/
theorem extractHref_shape (p u rest : List Char) (hp : 'h' ∉ p) (hu : '"' ∉ u) :
    extractHref (p ++ (cl "href=\"" ++ (u ++ '"' :: rest))) = some u := by
  unfold extractHref
  rw [@dropToMatch_skip (cl "href=\"") 'h' (by decide) p (cl "href=\"" ++ (u ++ '"' :: rest)) hp]
  rw [@dropToMatch_self (cl "href=\"") (by decide) (u ++ '"' :: rest)]
  rw [Option.map_some']
  have hall : ∀ x ∈ u, (fun c => decide (c ≠ '"')) x = true := by
    intro x hx
    exact decide_eq_true (fun he : x = '"' => hu (he ▸ hx))
  rw [takeWhile_stop (fun c => decide (c ≠ '"')) u rest '"' hall (by decide)]

theorem extractHref_childLine (cur url title : List Char) (hu : '"' ∉ url) :
    extractHref (childLine cur url title) = some url := by
  have hsh : childLine cur url title =
      cl "<li><a " ++ (cl "href=\"" ++ (url ++ '"' ::
        ((if cur = url then activeTok else []) ++ (cl ">" ++ title ++ cl "</a></li>")))) := by
    unfold childLine
    have e1 : cl "<li><a href=\"" = cl "<li><a " ++ cl "href=\"" := by decide
    have e2 : cl "\"" = ['"'] := by decide
    rw [e1, e2]
    simp [List.append_assoc]
  rw [hsh]
  exact extractHref_shape _ _ _ (by decide) hu

theorem extractHref_headLine (url title : List Char) (hu : '"' ∉ url) :
    extractHref (sectionHeadLine url title) = some url := by
  have hsh : sectionHeadLine url title =
      cl "<li><span class=\"section-title\"><a " ++ (cl "href=\"" ++ (url ++ '"' ::
        (cl ">" ++ title ++ cl "</a></span>"))) := by
    unfold sectionHeadLine
    have e1 : cl "<li><span class=\"section-title\"><a href=\"" =
        cl "<li><span class=\"section-title\"><a " ++ cl "href=\"" := by decide
    have e2 : cl "\">" = '"' :: cl ">" := by decide
    rw [e1, e2]
    simp [List.append_assoc]
  rw [hsh]
  exact extractHref_shape _ _ _ (by decide) hu

theorem extractHref_topLine (cur url title : List Char) (hu : '"' ∉ url) :
    extractHref (topLine cur url title) = some url := by
  have hsh : topLine cur url title =
      cl "<li><span class=\"section-title\"><a " ++ (cl "href=\"" ++ (url ++ '"' ::
        ((if cur = url then activeTok else []) ++
          (cl ">" ++ title ++ cl "</a></span></li>")))) := by
    unfold topLine
    have e1 : cl "<li><span class=\"section-title\"><a href=\"" =
        cl "<li><span class=\"section-title\"><a " ++ cl "href=\"" := by decide
    have e2 : cl "\"" = ['"'] := by decide
    rw [e1, e2]
    simp [List.append_assoc]
  rw [hsh]
  exact extractHref_shape _ _ _ (by decide) hu

theorem hrefsOf_append (a b : List (List Char)) :
    hrefsOf (a ++ b) = hrefsOf a ++ hrefsOf b := by
  unfold hrefsOf
  exact List.filterMap_append a b extractHref

theorem hrefsOf_flatten : ∀ ls : List (List (List Char)),
    hrefsOf ls.flatten = (ls.map hrefsOf).flatten := by
  intro ls
  induction ls with
  | nil => rfl
  | cons a as ih =>
    rw [List.flatten_cons, hrefsOf_append, ih, List.map_cons, List.flatten_cons]

theorem filterMap_eq_map_of {α β : Type} (F : α → Option β) (G : α → β) :
    ∀ l : List α, (∀ a ∈ l, F a = some (G a)) → l.filterMap F = l.map G := by
  intro l
  induction l with
  | nil => intro _; rfl
  | cons a as ih =>
    intro h
    rw [List.filterMap_cons_some (h a (List.mem_cons_self _ _)), List.map_cons,
      ih (fun b hb => h b (List.mem_cons_of_mem _ hb))]

theorem filterMap_skip_readme (g : List Char → List Char) : ∀ l : List (List Char),
    (l.filterMap fun f => if f = cl "README.md" then none else some (g f)) =
      (l.filter fun f => f ≠ cl "README.md").map g := by
  intro l
  induction l with
  | nil => rfl
  | cons f fs2 ih =>
    by_cases h : f = cl "README.md"
    · rw [List.filterMap_cons_none (by rw [if_pos h]),
        List.filter_cons_of_neg (by simp [h]), ih]
    · rw [List.filterMap_cons_some (by rw [if_neg h]),
        List.filter_cons_of_pos (by simp [h]), List.map_cons, ih]

/-- A destination path contains no double quote when neither the directory
nor the filename does. -/
theorem quote_not_mem_path (d f : List Char) (hd : '"' ∉ d) (hf : '"' ∉ f) :
    '"' ∉ md_to_html_path ⟨[d], f⟩ := by
  unfold md_to_html_path
  by_cases h : f = cl "README.md"
  · rw [if_pos h]
    rw [show renderPath ⟨[d], cl "index.html"⟩ = d ++ '/' :: cl "index.html" from rfl]
    intro hmem
    rcases List.mem_append.mp hmem with h1 | h1
    · exact hd h1
    · exact absurd h1 (by decide)
  · rw [if_neg h]
    rw [show renderPath ⟨[d], withSuffixHtml f⟩ = d ++ '/' :: withSuffixHtml f from rfl]
    intro hmem
    rcases List.mem_append.mp hmem with h1 | h1
    · exact hd h1
    · rcases List.mem_cons.mp h1 with h2 | h2
      · exact absurd h2 (by decide)
      · unfold withSuffixHtml at h2
        rcases List.mem_append.mp h2 with h3 | h3
        · unfold pyStem at h3
          exact hf (List.take_subset _ _ h3)
        · exact absurd h3 (by decide)

/-- The lines a section entry renders: its heading line, then — when the
section has any files — a nested list holding exactly one child link per
non-README file, in the file list's order, then the closing tag.  This is
the `filterMap` of `entryLines` with the README skip pushed into a
`filter`. -/
theorem entryLines_shape (fs : FS) (cur : List Char) (e : NavEntry) (d : List Char)
    (hd : e.sectionDir = some d) :
    entryLines fs cur e =
      [sectionHeadLine e.url e.title] ++
      (if (get_files_in_section fs d).isEmpty then [] else
        [cl "<ul>"] ++
        ((get_files_in_section fs d).filter fun f => f ≠ cl "README.md").map
          (fun f => childLine cur (md_to_html_path ⟨[d], f⟩)
            (get_title_from_markdown (fs.read ⟨[d], f⟩) ⟨[d], f⟩)) ++
        [cl "</ul>"]) ++
      [cl "</li>"] := by
  have h1 : entryLines fs cur e =
      [sectionHeadLine e.url e.title] ++
      (if (get_files_in_section fs d).isEmpty then [] else
        [cl "<ul>"] ++
        ((get_files_in_section fs d).filterMap fun f =>
          if f = cl "README.md" then none
          else some (childLine cur (md_to_html_path ⟨[d], f⟩)
            (get_title_from_markdown (fs.read ⟨[d], f⟩) ⟨[d], f⟩))) ++
        [cl "</ul>"]) ++
      [cl "</li>"] := by
    unfold entryLines
    rw [hd]
  rw [h1, filterMap_skip_readme (fun f => childLine cur (md_to_html_path ⟨[d], f⟩)
    (get_title_from_markdown (fs.read ⟨[d], f⟩) ⟨[d], f⟩)) (get_files_in_section fs d)]

/-- The hrefs a navigation entry's rendered lines carry are exactly the
entry's expected hrefs. -/
theorem hrefsOf_entry (fs : FS) (cur : List Char) (e : NavEntry)
    (hu : '"' ∉ e.url)
    (hdq : ∀ d, e.sectionDir = some d → '"' ∉ d)
    (hq : ∀ d f, f ∈ fs.mdNames d → '"' ∉ f) :
    hrefsOf (entryLines fs cur e) = expectedEntryHrefs fs e := by
  cases he : e.sectionDir with
  | none =>
    have h1 : entryLines fs cur e = [topLine cur e.url e.title] := by
      unfold entryLines
      rw [he]
    have h2 : expectedEntryHrefs fs e = [e.url] := by
      unfold expectedEntryHrefs
      rw [he]
    rw [h1, h2]
    simp [hrefsOf, extractHref_topLine cur e.url e.title hu]
  | some d =>
    have hdq2 : '"' ∉ d := hdq d he
    rw [entryLines_shape fs cur e d he]
    have h2 : expectedEntryHrefs fs e = e.url ::
        ((get_files_in_section fs d).filter fun f => f ≠ cl "README.md").map
          (fun f => md_to_html_path ⟨[d], f⟩) := by
      unfold expectedEntryHrefs
      rw [he]
    rw [h2, hrefsOf_append, hrefsOf_append]
    have hA : hrefsOf [sectionHeadLine e.url e.title] = [e.url] := by
      simp [hrefsOf, extractHref_headLine e.url e.title hu]
    have hC : hrefsOf [cl "</li>"] = [] := by decide
    rw [hA, hC, List.append_nil]
    by_cases hemp : (get_files_in_section fs d).isEmpty = true
    · rw [if_pos hemp, List.isEmpty_iff.mp hemp]
      simp [hrefsOf]
    · rw [if_neg hemp, hrefsOf_append, hrefsOf_append]
      have hU : hrefsOf [cl "<ul>"] = [] := by decide
      have hU2 : hrefsOf [cl "</ul>"] = [] := by decide
      rw [hU, hU2, List.nil_append, List.append_nil]
      have hmap : hrefsOf (((get_files_in_section fs d).filter fun f =>
          f ≠ cl "README.md").map
          (fun f => childLine cur (md_to_html_path ⟨[d], f⟩)
            (get_title_from_markdown (fs.read ⟨[d], f⟩) ⟨[d], f⟩))) =
          ((get_files_in_section fs d).filter fun f => f ≠ cl "README.md").map
            (fun f => md_to_html_path ⟨[d], f⟩) := by
        unfold hrefsOf
        rw [List.filterMap_map]
        apply filterMap_eq_map_of
        intro f hf
        have hfq : '"' ∉ f := hq d f (mem_get_files fs d f hf)
        exact extractHref_childLine cur _ _ (quote_not_mem_path d f hdq2 hfq)
      rw [hmap]
      rfl

/-- C7: sidebar ordering. For every file system (whose glob-listed
filenames carry no double-quote character) and every current page: (1) the
href attributes of the rendered sidebar lines are, in order, exactly the
flattening of each navigation entry's expected hrefs — the entry's own URL
first, then, for a section, the destinations of its non-README files — so
the top-level entries appear in the fixed `NAV_STRUCTURE` order; (2) a
section entry renders its heading line, a nested list holding exactly one
child link per non-README file of the section in the file list's order —
the README never yields a child entry — and a closing tag; (3) the
non-README file list of every section is lexicographically sorted. -/
theorem C7_sidebar_order (fs : FS) (cur : List Char)
    (hq : ∀ d f, f ∈ fs.mdNames d → '"' ∉ f) :
    hrefsOf (sidebarLines fs cur) = (NAV_STRUCTURE.map (expectedEntryHrefs fs)).flatten ∧
    (∀ e : NavEntry, ∀ d, e.sectionDir = some d →
      entryLines fs cur e =
        [sectionHeadLine e.url e.title] ++
        (if (get_files_in_section fs d).isEmpty then [] else
          [cl "<ul>"] ++
          ((get_files_in_section fs d).filter fun f => f ≠ cl "README.md").map
            (fun f => childLine cur (md_to_html_path ⟨[d], f⟩)
              (get_title_from_markdown (fs.read ⟨[d], f⟩) ⟨[d], f⟩)) ++
          [cl "</ul>"]) ++
        [cl "</li>"]) ∧
    (∀ d, List.Pairwise (fun a b => lexLe a b = true)
      ((get_files_in_section fs d).filter fun f => f ≠ cl "README.md")) := by
  refine ⟨?_, fun e d hd => entryLines_shape fs cur e d hd, fun d => pairwise_get_files fs d⟩
  have hNAV : ∀ e ∈ NAV_STRUCTURE, '"' ∉ e.url ∧ ∀ d, e.sectionDir = some d → '"' ∉ d := by
    intro e he
    fin_cases he <;> refine ⟨by decide, fun d hd => ?_⟩ <;>
      first
        | exact Option.noConfusion hd
        | (injection hd with h; subst h; decide)
  have h1 : sidebarLines fs cur =
      [cl "<ul>"] ++ (NAV_STRUCTURE.map (entryLines fs cur)).flatten ++ [cl "</ul>"] := rfl
  rw [h1, hrefsOf_append, hrefsOf_append]
  have hU : hrefsOf [cl "<ul>"] = [] := by decide
  have hU2 : hrefsOf [cl "</ul>"] = [] := by decide
  rw [hU, hU2, List.nil_append, List.append_nil, hrefsOf_flatten, List.map_map]
  congr 1
  apply List.map_congr_left
  intro e he
  obtain ⟨hu, hdq⟩ := hNAV e he
  exact hrefsOf_entry fs cur e hu hdq hq

/-- C7 witness: on the sample file system (one existing section
`getting-started` holding `README.md` and `install.md`) the sidebar's hrefs
are the eleven navigation entries' URLs in configured order, with the
single non-README child of `getting-started` — and no README child —
spliced in after its section. -/
theorem C7_sidebar_order_witness :
    hrefsOf (sidebarLines sampleFS (cl "index.html")) =
      [cl "index.html", cl "quickstart.html", cl "quick-reference.html",
       cl "getting-started/index.html", cl "getting-started/install.html",
       cl "core-guides/index.html", cl "intermediate/index.html",
       cl "advanced/index.html", cl "key-concepts/index.html",
       cl "background/index.html", cl "reference/index.html",
       cl "troubleshooting/index.html"] := by
  have hq : ∀ d f, f ∈ sampleFS.mdNames d → '"' ∉ f := by
    intro d f hf
    have hmd : sampleFS.mdNames d =
        if d = cl "getting-started" then [cl "install.md", cl "README.md"] else [] := rfl
    rw [hmd] at hf
    by_cases hd : d = cl "getting-started"
    · rw [if_pos hd] at hf
      rcases List.mem_cons.mp hf with h | h
      · rw [h]; decide
      · rcases List.mem_cons.mp h with h2 | h2
        · rw [h2]; decide
        · exact absurd h2 (by simp)
    · rw [if_neg hd] at hf
      exact absurd hf (by simp)
  exact (C7_sidebar_order sampleFS (cl "index.html") hq).1.trans (by decide)
